import Mathlib

/-!
Shallow embedding of the native-phrase-agent core: the canonical-phrase,
definition and example resolvers, the lesson parser, the corrector-output
resolver, the phrase memory store, the quiz generator and the batch
normalizer.  Strings are modelled as `List Char`; every Python regex that
the code applies is compiled by hand into an explicit character-list
scanner with the same leftmost-match semantics.
-/

namespace NPA

/-- Python `\s` (ASCII whitespace as used by `str.strip` and `re` on this data). -/
def pyIsSpace (c : Char) : Bool :=
  c = ' ' || c = '\t' || c = '\n' || c = '\r' || c = '\x0b' || c = '\x0c'

/-- Python `str.lstrip()`. -/
def lstrip (s : List Char) : List Char := s.dropWhile pyIsSpace

/-- Python `str.rstrip()`. -/
def rstrip (s : List Char) : List Char := (s.reverse.dropWhile pyIsSpace).reverse

/-- Python `str.strip()`. -/
def pyStrip (s : List Char) : List Char := rstrip (lstrip s)

/-- Python `str.lower()` (ASCII data). -/
def lowerStr (s : List Char) : List Char := s.map Char.toLower

/-- The local `_norm` helper of `add_phrase`: `(s or '').lower().strip()`. -/
def normP (s : List Char) : List Char := pyStrip (lowerStr s)

/-- An apostrophe character, used when the code builds quoted status strings. -/
def apos : Char := Char.ofNat 39

/-- A backtick character (stripped by the corrector-output resolver). -/
def btick : Char := Char.ofNat 96

/-- Case-insensitive literal match: consume `pat` from the head of `s`. -/
def stripPrefixCI : List Char → List Char → Option (List Char)
  | [], s => some s
  | _, [] => none
  | p :: ps, c :: cs => if p.toLower = c.toLower then stripPrefixCI ps cs else none

/-- Case-sensitive literal prefix test. -/
def isPrefixCS : List Char → List Char → Bool
  | [], _ => true
  | _, [] => false
  | p :: ps, c :: cs => p = c && isPrefixCS ps cs

/-- Case-sensitive substring test (Python `pat in s`). -/
def containsSub (pat : List Char) : List Char → Bool
  | [] => isPrefixCS pat []
  | s@(_ :: rest) => isPrefixCS pat s || containsSub pat rest

/-- Case-insensitive literal prefix test. -/
def isPrefixCI (pat s : List Char) : Bool := (stripPrefixCI pat s).isSome

/-- Case-insensitive substring test (Python `re.search(re.escape(pat), s, IGNORECASE)`). -/
def containsCI (pat : List Char) : List Char → Bool
  | [] => isPrefixCI pat []
  | s@(_ :: rest) => isPrefixCI pat s || containsCI pat rest

/-- Python `re.search`: try a whole-pattern matcher at each position, leftmost first;
the position at the very end of the string is also tried. -/
def searchA (matchAt : List Char → Option α) : List Char → Option α
  | [] => matchAt []
  | s@(_ :: rest) =>
    match matchAt s with
    | some r => some r
    | none => searchA matchAt rest

/-- Backtracking helper: try `f` on `t.drop j` for `j = hi, hi-1, ..., 0`, first
success wins.  This reproduces the give-back order of a greedy `\s*`-style
quantifier followed by the tail of a pattern. -/
def firstDropDesc (f : List Char → Option α) (t : List Char) : Nat → Option α
  | 0 => f t
  | j + 1 =>
    match f (t.drop (j + 1)) with
    | some r => some r
    | none => firstDropDesc f t j

/-- The tail `\s*[:\-]?\s*` of several label regexes, with the regex engine's
give-back order (longer whitespace runs and a present `:`/`-` preferred),
followed by an alternation `alt` applied at the resulting position. -/
def afterLabelSep (alt : List Char → Option α) (t : List Char) : Option α :=
  firstDropDesc
    (fun rest1 =>
      match rest1 with
      | c :: rest2 =>
        if c = ':' || c = '-' then
          match firstDropDesc alt rest2 ((rest2.takeWhile pyIsSpace).length) with
          | some r => some r
          | none => alt rest1
        else
          firstDropDesc alt rest1 ((rest1.takeWhile pyIsSpace).length)
      | [] => alt rest1)
    t ((t.takeWhile pyIsSpace).length)

/-- The optionally-quoted branch `"?([^\n"]+)"?` of the phrase-label
alternation: step over a leading quote if present, capture up to the first
newline or quote. -/
def labelQuoteBranch (u : List Char) : Option (List Char) :=
  match u with
  | '"' :: v =>
    let cap := v.takeWhile (fun c => !(c = '\n' || c = '"'))
    if cap.isEmpty then none else some cap
  | _ =>
    let cap := u.takeWhile (fun c => !(c = '\n' || c = '"'))
    if cap.isEmpty then none else some cap

/-- Alternation `(?:<<([^>]+)>>|"?([^\n"]+)"?)` of the phrase-label regex:
first a `<<...>>` emphasis span, else an optionally quoted remainder of the
line.  Returns the captured group. -/
def labelAlt (s : List Char) : Option (List Char) :=
  let quoteBranch : List Char → Option (List Char) := labelQuoteBranch
  match s with
  | '<' :: '<' :: rest =>
    let cap := rest.takeWhile (fun c => c ≠ '>')
    if cap.isEmpty then quoteBranch s
    else
      match rest.drop cap.length with
      | '>' :: '>' :: _ => some cap
      | _ => quoteBranch s
  | _ => quoteBranch s

/-- Whole-pattern matcher at one position for
`(?:Phrase to learn|Suggested colloquial phrase)\s*[:\-]?\s*(?:<<([^>]+)>>|"?([^\n"]+)"?)`
(case-insensitive), returning the captured group. -/
def matchLabelAt (s : List Char) : Option (List Char) :=
  match stripPrefixCI "phrase to learn".toList s with
  | some t => afterLabelSep labelAlt t
  | none =>
    match stripPrefixCI "suggested colloquial phrase".toList s with
    | some t => afterLabelSep labelAlt t
    | none => none

/-- Whole-pattern matcher at one position for `<<([^>]+)>>`. -/
def matchAnglesAt (s : List Char) : Option (List Char) :=
  match s with
  | '<' :: '<' :: rest =>
    let cap := rest.takeWhile (fun c => c ≠ '>')
    if cap.isEmpty then none
    else
      match rest.drop cap.length with
      | '>' :: '>' :: _ => some cap
      | _ => none
  | _ => none

/-- Whole-pattern matcher at one position for `<strong>([^<]+)</strong>` (case-insensitive). -/
def matchStrongAt (s : List Char) : Option (List Char) :=
  match stripPrefixCI "<strong>".toList s with
  | some t =>
    let cap := t.takeWhile (fun c => c ≠ '<')
    if cap.isEmpty then none
    else
      match stripPrefixCI "</strong>".toList (t.drop cap.length) with
      | some _ => some cap
      | none => none
  | none => none

/-- Length of `dropWhile` never exceeds the original length. -/
theorem dropWhileLenLe (p : α → Bool) (l : List α) : (l.dropWhile p).length ≤ l.length :=
  (List.dropWhile_suffix p).sublist.length_le

/-- Fuelled worker for `re.sub(r'<[^>]+>', '', html)`: every step consumes at
least one character, so fuel `s.length + 1` is enough (fuel-based recursion
so that the kernel can evaluate the function). -/
def stripTagsGo : Nat → List Char → List Char
  | 0, s => s
  | fuel + 1, s =>
    match s with
    | [] => []
    | '<' :: rest =>
      let cap := rest.takeWhile (fun c => c ≠ '>')
      if cap.isEmpty then '<' :: stripTagsGo fuel rest
      else
        match rest.dropWhile (fun c => c ≠ '>') with
        | '>' :: rest2 => stripTagsGo fuel rest2
        | _ => '<' :: stripTagsGo fuel rest
    | c :: rest => c :: stripTagsGo fuel rest

/-- Python `re.sub(r'<[^>]+>', '', html)`: strip all markup tags. -/
def stripTags (s : List Char) : List Char := stripTagsGo (s.length + 1) s

/-- A stored phrase record (one element of `memory_bank.json`).  Optional JSON
fields are `Option`; `phrase`, `meaning`, `date_added` are always present
(`''` standing in for a missing value, exactly as `get(..., '')`/`or ''`
treats them). -/
structure Record where
  phrase : List Char := []
  meaning : List Char := []
  date_added : List Char := []
  source_context : Option (List Char) := none
  corrected_context : Option (List Char) := none
  lesson_text : Option (List Char) := none
  lesson_html : Option (List Char) := none
  examples : Option (List (List Char)) := none
deriving DecidableEq

/-- `ReviewAgent._canonical_from_labels(text)`: labeled phrase line, trimmed
capture, `None` when the capture trims to empty. -/
def canonicalFromLabels (text : List Char) : Option (List Char) :=
  if text = [] then none
  else
    match searchA matchLabelAt text with
    | some cap =>
      let c := pyStrip cap
      if c = [] then none else some c
    | none => none

/-- `ReviewAgent._extract_canonical_phrase(item)`: the five-step cascade of the
read-side canonical-phrase resolver. -/
def extractCanonicalPhraseRA (item : Record) : Option (List Char) :=
  let lesson_text := item.lesson_text.getD []
  let lesson_html := item.lesson_html.getD []
  match canonicalFromLabels lesson_text with
  | some lab => some lab
  | none =>
    match (searchA matchAnglesAt lesson_text).bind
        (fun c => if pyStrip c = [] then none else some (pyStrip c)) with
    | some r => some r
    | none =>
      match (searchA matchStrongAt lesson_html).bind
          (fun c => if pyStrip c = [] then none else some (pyStrip c)) with
      | some r => some r
      | none =>
        match canonicalFromLabels (stripTags lesson_html) with
        | some lab2 => some lab2
        | none => if item.phrase = [] then none else some item.phrase

/-- `MemoryBankTool._extract_canonical_from_lesson(lesson_text, lesson_html)`.
A labeled match whose capture trims to empty causes an immediate `None`
return (`return ... or None`), skipping all later rules; in the HTML branch
the tag-stripped label search runs before the `<strong>` rule. -/
def extractCanonicalFromLessonMB (lesson_text lesson_html : Option (List Char)) :
    Option (List Char) :=
  let text := lesson_text.getD []
  let html := lesson_html.getD []
  let fromText : Option (Option (List Char)) :=
    if text = [] then none
    else
      match searchA matchLabelAt text with
      | some cap => some (if pyStrip cap = [] then none else some (pyStrip cap))
      | none =>
        match searchA matchAnglesAt text with
        | some cap => if pyStrip cap ≠ [] then some (some (pyStrip cap)) else none
        | none => none
  match fromText with
  | some r => r
  | none =>
    if html = [] then none
    else
      let plain := stripTags html
      match searchA matchLabelAt plain with
      | some cap => if pyStrip cap = [] then none else some (pyStrip cap)
      | none =>
        match searchA matchStrongAt html with
        | some cap => if pyStrip cap ≠ [] then some (pyStrip cap) else none
        | none => none

/-- Capture `(.+)`: one or more characters on the current line, greedy. -/
def capLine (s : List Char) : Option (List Char) :=
  let cap := s.takeWhile (fun c => c ≠ '\n')
  if cap.isEmpty then none else some cap

/-- Capture `([^<]+)`. -/
def capNoLt (s : List Char) : Option (List Char) :=
  let cap := s.takeWhile (fun c => c ≠ '<')
  if cap.isEmpty then none else some cap

/-- Matcher at one position for `Definition\s*[:\-]?\s*(.+)` (case-insensitive). -/
def matchDefAt (s : List Char) : Option (List Char) :=
  match stripPrefixCI "definition".toList s with
  | some t => afterLabelSep capLine t
  | none => none

/-- Matcher at one position for `Definition\s*[:\-]?\s*([^<]+)` (case-insensitive). -/
def matchDefHtmlAt (s : List Char) : Option (List Char) :=
  match stripPrefixCI "definition".toList s with
  | some t => afterLabelSep capNoLt t
  | none => none

/-- One-position test for the split pattern `\n\n|\n[A-Z][a-z]+\s*[:\-]`. -/
def isDefnBreakAt (s : List Char) : Bool :=
  match s with
  | '\n' :: rest =>
    (match rest with
     | [] => false
     | c :: rest2 =>
       if c = '\n' then true
       else
         ('A' ≤ c && c ≤ 'Z') &&
           (let low := rest2.takeWhile (fun d => 'a' ≤ d && d ≤ 'z')
            let after := rest2.dropWhile (fun d => 'a' ≤ d && d ≤ 'z')
            !low.isEmpty &&
              (match after.dropWhile pyIsSpace with
               | ':' :: _ => true
               | '-' :: _ => true
               | _ => false)))
  | _ => false

/-- `re.split(r'\n\n|\n[A-Z][a-z]+\s*[:\-]', val)[0]`: segment before the first break. -/
def defnSplitHead : List Char → List Char
  | [] => []
  | c :: rest => if isDefnBreakAt (c :: rest) then [] else c :: defnSplitHead rest

mutual

/-- Worker for `re.split(r'(?<=[\.\?\!])\s+', s)`: split on whitespace runs
immediately preceded by `.`, `?` or `!`. -/
def sentSplitGo (prev : Char) (acc : List Char) : List Char → List (List Char)
  | [] => [acc.reverse]
  | c :: rs =>
    if pyIsSpace c && (prev = '.' || prev = '?' || prev = '!') then
      acc.reverse :: sentSplitWs rs
    else
      sentSplitGo c (c :: acc) rs

/-- Consume the rest of a `\s+` delimiter run, then resume accumulating. -/
def sentSplitWs : List Char → List (List Char)
  | [] => [[]]
  | c :: rs => if pyIsSpace c then sentSplitWs rs else sentSplitGo c [c] rs

end

/-- `re.split(r'(?<=[\.\?\!])\s+', s)`. -/
def sentSplit (s : List Char) : List (List Char) := sentSplitGo 'x' [] s

/-- Python `str.strip('"')`. -/
def stripQuotes (s : List Char) : List Char :=
  ((s.dropWhile (fun c => c = '"')).reverse.dropWhile (fun c => c = '"')).reverse

/-- `lower().find(lowered pat)`: first index of a case-insensitive substring. -/
def findCI (pat : List Char) : List Char → Option Nat
  | [] => if isPrefixCI pat [] then some 0 else none
  | s@(_ :: rest) =>
    if isPrefixCI pat s then some 0
    else (findCI pat rest).map (· + 1)

/-- `ReviewAgent._extract_definition(lesson_text, item)`. -/
def extractDefinitionRA (lesson_text : List Char) (item : Record) : List Char :=
  if lesson_text = [] then item.meaning
  else
    match searchA matchDefAt lesson_text with
    | some cap =>
      let val := pyStrip cap
      pyStrip (defnSplitHead val)
    | none =>
      match searchA matchDefHtmlAt lesson_text with
      | some cap2 => pyStrip cap2
      | none =>
        if item.meaning ≠ [] then item.meaning
        else
          let phrase := item.phrase
          if phrase ≠ [] then
            match findCI phrase lesson_text with
            | some idx =>
              let after := lesson_text.drop idx
              let sents := sentSplit after
              if sents.length > 1 then stripQuotes (pyStrip (sents.getD 1 []))
              else []
            | none => []
          else []

/-- Group capture of `Examples?\s*[:\-]?\s*(.*?)(?:\n\n|\nLesson:|\nUsage|$)`:
lazy capture up to the first terminator; `$` also matches just before a
trailing final newline. -/
def exBlock : List Char → List Char
  | [] => []
  | '\n' :: rest =>
    if rest = [] then []
    else if rest.head? = some '\n' then []
    else if isPrefixCI "lesson:".toList rest then []
    else if isPrefixCI "usage".toList rest then []
    else '\n' :: exBlock rest
  | c :: rest => c :: exBlock rest

/-- Matcher at one position for
`Examples?\s*[:\-]?\s*(.*?)(?:\n\n|\nLesson:|\nUsage|$)` (case-insensitive,
DOTALL); once the label is found the rest of the pattern always matches, so
the greedy prefix needs no give-back. -/
def matchExamplesAt (s : List Char) : Option (List Char) :=
  match stripPrefixCI "example".toList s with
  | some t0 =>
    let t1 := match t0 with
      | c :: rest => if c.toLower = 's' then rest else t0
      | [] => t0
    let t2 := t1.dropWhile pyIsSpace
    let t3 := match t2 with
      | c :: rest => if c = ':' || c = '-' then rest else t2
      | [] => t2
    let t4 := t3.dropWhile pyIsSpace
    some (exBlock t4)
  | none => none

mutual

/-- Worker for `re.split(r'\n+', s)`. -/
def splitNlGo (acc : List Char) : List Char → List (List Char)
  | [] => [acc.reverse]
  | c :: rs => if c = '\n' then acc.reverse :: splitNlSkip rs else splitNlGo (c :: acc) rs

/-- Consume the rest of a `\n+` delimiter run, then resume accumulating. -/
def splitNlSkip : List Char → List (List Char)
  | [] => [[]]
  | c :: rs => if c = '\n' then splitNlSkip rs else splitNlGo [c] rs

end

/-- `re.split(r'\n+', s)`. -/
def splitNl (s : List Char) : List (List Char) := splitNlGo [] s

/-- Character class `[\-\*\d\.)\s]` of the bullet/numbering prefix pattern. -/
def isBulletChar (c : Char) : Bool :=
  c = '-' || c = '*' || ('0' ≤ c && c ≤ '9') || c = '.' || c = ')' || pyIsSpace c

/-- `re.sub(r'^[\-\*\d\.)\s]+', '', s)`. -/
def bulletStrip (s : List Char) : List Char := s.dropWhile isBulletChar

/-- Fuelled worker for
`re.sub(r'<<([^>]*)>>', lambda mo: (mo.group(1).strip() or canon).strip(), s)`:
every step consumes at least one character. -/
def substAnglesGo (canon : List Char) : Nat → List Char → List Char
  | 0, s => s
  | fuel + 1, s =>
    match s with
    | '<' :: '<' :: rest =>
      let cap := rest.takeWhile (fun c => c ≠ '>')
      (match rest.dropWhile (fun c => c ≠ '>') with
       | '>' :: '>' :: rest2 =>
         (if pyStrip cap = [] then pyStrip canon else pyStrip cap) ++
           substAnglesGo canon fuel rest2
       | _ => '<' :: substAnglesGo canon fuel ('<' :: rest))
    | c :: rest => c :: substAnglesGo canon fuel rest
    | [] => []

/-- `re.sub(r'<<([^>]*)>>', lambda mo: (mo.group(1).strip() or canon).strip(), s)`:
replace every emphasis span by its trimmed inner text, or the trimmed
canonical phrase when the inner text trims to empty. -/
def substAngles (canon s : List Char) : List Char := substAnglesGo canon (s.length + 1) s

/-- Python `str.replace` for a fixed two-character pattern (used for `'<>'`,
`'  '` and `'**'`): leftmost, non-overlapping. -/
def replace2 (a b : Char) (repl : List Char) : List Char → List Char
  | x :: y :: rest =>
    if x = a && y = b then repl ++ replace2 a b repl rest
    else x :: replace2 a b repl (y :: rest)
  | s => s

/-- Fuelled worker for `re.sub(r'\s{2,}', ' ', s)`. -/
def collapseWsRunsGo : Nat → List Char → List Char
  | 0, s => s
  | fuel + 1, s =>
    match s with
    | a :: b :: rest =>
      if pyIsSpace a && pyIsSpace b then
        ' ' :: collapseWsRunsGo fuel (rest.dropWhile pyIsSpace)
      else a :: collapseWsRunsGo fuel (b :: rest)
    | s => s

/-- `re.sub(r'\s{2,}', ' ', s)`: each maximal whitespace run of length at
least two becomes a single space; lone whitespace characters are kept. -/
def collapseWsRuns (s : List Char) : List Char := collapseWsRunsGo (s.length + 1) s

/-- Matcher at one position for `Usage\s*\d*\s*[:\-]?\s*(.+)` (case-insensitive),
greedy; returns the capture and the suffix after the whole match. -/
def matchUsageAt (s : List Char) : Option (List Char × List Char) :=
  match stripPrefixCI "usage".toList s with
  | some t0 =>
    let t1 := t0.dropWhile pyIsSpace
    let t2 := t1.dropWhile (fun c => '0' ≤ c && c ≤ '9')
    let t3 := t2.dropWhile pyIsSpace
    let t4 := match t3 with
      | c :: rest => if c = ':' || c = '-' then rest else t3
      | [] => t3
    let t5 := t4.dropWhile pyIsSpace
    let cap := t5.takeWhile (fun c => c ≠ '\n')
    if cap.isEmpty then none else some (cap, t5.drop cap.length)
  | none => none

/-- Fuelled worker for `re.findall(r'Usage\s*\d*\s*[:\-]?\s*(.+)', s, I)`:
every step consumes at least one character, so fuel `s.length + 1` is enough. -/
def findAllUsageGo : Nat → List Char → List (List Char)
  | 0, _ => []
  | fuel + 1, s =>
    match s with
    | [] => []
    | _ :: rest =>
      match matchUsageAt s with
      | some (cap, after) => cap :: findAllUsageGo fuel after
      | none => findAllUsageGo fuel rest

/-- `re.findall(r'Usage\s*\d*\s*[:\-]?\s*(.+)', s, IGNORECASE)`. -/
def findAllUsage (s : List Char) : List (List Char) := findAllUsageGo (s.length + 1) s

/-- Fuelled worker for `re.findall(r'[^\n\.]+\.', s)`: a maximal run of
non-newline non-dot characters immediately followed by a dot (dot included
in the match); every step consumes at least one character. -/
def findSentsGo : Nat → List Char → List (List Char)
  | 0, _ => []
  | fuel + 1, s =>
    match s with
    | [] => []
    | _ :: _ =>
      let run := s.takeWhile (fun c => !(c = '\n' || c = '.'))
      let rest := s.dropWhile (fun c => !(c = '\n' || c = '.'))
      if run.isEmpty then findSentsGo fuel s.tail
      else
        match rest with
        | '.' :: more => (run ++ ['.']) :: findSentsGo fuel more
        | _ :: more => findSentsGo fuel more
        | [] => []

/-- `re.findall(r'[^\n\.]+\.', s)`. -/
def findSents (s : List Char) : List (List Char) := findSentsGo (s.length + 1) s

/-- Stage (a) loop of `_extract_examples`: lines of the `Examples` block. -/
def exStageA (canon : List Char) : List (List Char) → List (List Char) → List (List Char)
  | acc, [] => acc
  | acc, p :: ps =>
    let s0 := pyStrip p
    if s0 = [] then exStageA canon acc ps
    else
      let s1 := pyStrip (bulletStrip s0)
      let s2 := substAngles canon s1
      let s3 := pyStrip (replace2 ' ' ' ' [' '] (replace2 '<' '>' [] s2))
      let acc2 := if s3.length > 5 then acc ++ [s3] else acc
      if acc2.length ≥ 2 then acc2 else exStageA canon acc2 ps

/-- Stage (b) loop of `_extract_examples`: `Usage` labelled lines. -/
def exStageB (canon : List Char) : List (List Char) → List (List Char) → List (List Char)
  | acc, [] => acc
  | acc, u :: us =>
    let s0 := pyStrip u
    let s := substAngles canon s0
    let acc2 := if s ≠ [] && !acc.contains s then acc ++ [s] else acc
    if acc2.length ≥ 2 then acc2 else exStageB canon acc2 us

/-- Stage (c) loop of `_extract_examples`: a legacy stored example list. -/
def exStageC : List (List Char) → List (List Char) → List (List Char)
  | acc, [] => acc
  | acc, ex :: exs =>
    let s := pyStrip ex
    let acc2 := if s ≠ [] && !acc.contains s then acc ++ [s] else acc
    if acc2.length ≥ 2 then acc2 else exStageC acc2 exs

/-- Stage (d) loop of `_extract_examples`: sentences of `corrected_context`. -/
def exStageD (canon : List Char) : List (List Char) → List (List Char) → List (List Char)
  | acc, [] => acc
  | acc, sent :: ss =>
    let s0 := pyStrip sent
    if s0 = [] then exStageD canon acc ss
    else
      let s1 := substAngles canon s0
      let s2 := pyStrip (replace2 '<' '>' [] s1)
      let acc2 := if s2.length > 5 && !acc.contains s2 then acc ++ [s2] else acc
      if acc2.length ≥ 2 then acc2 else exStageD canon acc2 ss

/-- Stage (e) loop of `_extract_examples`: lesson sentences containing the
canonical phrase or an emphasis marker. -/
def exStageE (canon : List Char) : List (List Char) → List (List Char) → List (List Char)
  | acc, [] => acc
  | acc, sent :: ss =>
    if containsCI canon sent || containsSub "<<".toList sent then
      let s0 := pyStrip sent
      let s1 := substAngles canon s0
      let s2 := pyStrip (replace2 '<' '>' [] s1)
      let acc2 := if s2 ≠ [] && !acc.contains s2 then acc ++ [s2] else acc
      if acc2.length ≥ 2 then acc2 else exStageE canon acc2 ss
    else exStageE canon acc ss

/-- Final cleanup loop of `_extract_examples`. -/
def exFinalClean : List (List Char) → List (List Char) → List (List Char)
  | acc, [] => acc
  | acc, s :: ss =>
    let s2 := collapseWsRuns (pyStrip (replace2 '<' '>' [] s))
    let acc2 := if s2 ≠ [] then acc ++ [s2] else acc
    if acc2.length ≥ 2 then acc2 else exFinalClean acc2 ss

/-- `ReviewAgent._extract_examples(lesson_text, canonical, item)`. -/
def extractExamplesRA (lesson_text canonical : List Char) (item : Record) :
    List (List Char) :=
  let ex1 :=
    if lesson_text ≠ [] then
      match searchA matchExamplesAt lesson_text with
      | some block0 => exStageA canonical [] (splitNl (pyStrip block0))
      | none => []
    else []
  let ex2 :=
    if ex1.length < 2 && lesson_text ≠ [] then
      exStageB canonical ex1 (findAllUsage lesson_text)
    else ex1
  let ex3 :=
    if ex2.length < 2 then
      match item.examples with
      | some legacy => exStageC ex2 legacy
      | none => ex2
    else ex2
  let ex4 :=
    if ex3.length < 2 then
      match item.corrected_context with
      | some ctx => if ctx ≠ [] then exStageD canonical ex3 (sentSplit ctx) else ex3
      | none => ex3
    else ex3
  let ex5 :=
    if ex4.length < 2 && canonical ≠ [] && lesson_text ≠ [] then
      exStageE canonical ex4 (findSents lesson_text)
    else ex4
  (exFinalClean [] ex5).take 2

/-- The read-side `DerivedLesson` view `{phrase, definition, examples}`. -/
structure Derived where
  phrase : List Char
  definition : List Char
  examples : List (List Char)
deriving DecidableEq

/-- Synthetic filler example 1 of `_parse_lesson`. -/
def filler1 (base : List Char) : List Char :=
  "I used ".toList ++ [apos] ++ base ++ [apos] ++ " in a sentence.".toList

/-- Synthetic filler example 2 of `_parse_lesson`. -/
def filler2 (base : List Char) : List Char :=
  "Can you say: ".toList ++ [apos] ++ base ++ [apos] ++ " naturally?".toList

/-- `ReviewAgent._parse_lesson(item)`. -/
def parseLesson (item : Record) : Derived :=
  let lesson_text := item.lesson_text.getD []
  let canonical :=
    match extractCanonicalPhraseRA item with
    | some c => c
    | none => item.phrase
  let definition :=
    let d := extractDefinitionRA lesson_text item
    if d ≠ [] then d else item.meaning
  let examples := extractExamplesRA lesson_text canonical item
  let cleaned := examples.map
    (fun ex => pyStrip (replace2 '<' '>' canonical (substAngles canonical ex)))
  let padded :=
    if cleaned.length < 2 && canonical ≠ [] then
      let a := if cleaned.length = 0 then cleaned ++ [filler1 canonical] else cleaned
      if a.length = 1 then a ++ [filler2 canonical] else a
    else cleaned
  let phrase_out := if canonical ≠ [] then canonical else item.phrase
  { phrase := phrase_out, definition := definition, examples := padded }

/-- Conditional field write of `add_phrase` (`if value: item[...] = value`). -/
def updIf (new old : Option (List Char)) : Option (List Char) :=
  match new with
  | some v => if v = [] then old else some v
  | none => old

/-- Status string `Updated existing entry for '<p>' in the memory bank.`. -/
def statusUpdated (p : List Char) : List Char :=
  "Updated existing entry for ".toList ++ [apos] ++ p ++ [apos] ++
    " in the memory bank.".toList

/-- Status string `Successfully added '<p>' to the memory bank for future testing.`. -/
def statusAdded (p : List Char) : List Char :=
  "Successfully added ".toList ++ [apos] ++ p ++ [apos] ++
    " to the memory bank for future testing.".toList

/-- The merge applied to the matching record by `add_phrase`: non-empty
supplied fields overwrite; `phrase` and `source_context` are left alone;
`date_added` is refreshed. -/
def mergeRecord (meaning : List Char)
    (corrected_context lesson_text lesson_html : Option (List Char))
    (now : List Char) (r : Record) : Record :=
  { r with
    meaning := if meaning ≠ [] then meaning else r.meaning
    corrected_context := updIf corrected_context r.corrected_context
    lesson_text := updIf lesson_text r.lesson_text
    lesson_html := updIf lesson_html r.lesson_html
    date_added := now }

/-- Walk the store for the first record whose normalised phrase matches and
update it in place; `none` when no record matches. -/
def updateFirstMatch (finalNorm : List Char) (upd : Record → Record) :
    List Record → Option (List Record)
  | [] => none
  | r :: rs =>
    if normP r.phrase = finalNorm then some (upd r :: rs)
    else (updateFirstMatch finalNorm upd rs).map (r :: ·)

/-- The phrase `add_phrase` resolves and trims:
`(canonical or phrase or '').strip()` where `canonical` comes from the
lesson fields. -/
def resolvedPhrase (phrase : List Char) (lesson_text lesson_html : Option (List Char)) :
    List Char :=
  pyStrip
    (match extractCanonicalFromLessonMB lesson_text lesson_html with
     | some c => if c ≠ [] then c else phrase
     | none => phrase)

/-- `MemoryBankTool.add_phrase(...)`, with the fresh timestamp passed in as
`now`.  Returns the status string, the new in-memory store, and whether the
backing file was rewritten (`_save_memory` called). -/
def addPhrase (mem : List Record) (phrase meaning : List Char)
    (source_context corrected_context lesson_text lesson_html : Option (List Char))
    (now : List Char) : List Char × List Record × Bool :=
  let final := resolvedPhrase phrase lesson_text lesson_html
  if final = [] then ("No valid phrase provided to add.".toList, mem, false)
  else
    let finalNorm := normP final
    match updateFirstMatch finalNorm
        (mergeRecord meaning corrected_context lesson_text lesson_html now) mem with
    | some mem2 => (statusUpdated final, mem2, true)
    | none =>
      let newEntry : Record :=
        { phrase := final, meaning := meaning, date_added := now
          source_context := updIf source_context none
          corrected_context := updIf corrected_context none
          lesson_text := updIf lesson_text none
          lesson_html := updIf lesson_html none
          examples := none }
      (statusAdded final, mem ++ [newEntry], true)

/-- `MemoryBankTool.get_memory_stats()`. -/
def getMemoryStats (mem : List Record) : List Char :=
  "Memory Bank currently holds ".toList ++ (toString mem.length).toList ++
    " unique phrases.".toList

/-- A generated quiz question. -/
structure Quiz where
  question : List Char
  phrase : List Char
  choices : List (List Char)
  correct_index : Int
deriving DecidableEq

/-- Python `list.index(x)` over choice lists (first position of an equal
element; callers guard membership first, exactly as the code guards with
`in`). -/
def pyIndex (a : List Char) : List (List Char) → Nat
  | [] => 0
  | b :: bs => if b = a then 0 else pyIndex a bs + 1

/-- Number of occurrences of a choice text in a choices list. -/
def countOcc (a : List Char) : List (List Char) → Nat
  | [] => 0
  | b :: bs => (if b = a then 1 else 0) + countOcc a bs

/-- Result of `generate_quiz`: either a question or the error payload. -/
inductive QuizResult where
  | err : List Char → QuizResult
  | ok : Quiz → QuizResult
deriving DecidableEq

/-- `ReviewAgent.generate_quiz(num_choices)`.  Randomness is made explicit:
`pick` selects the correct record (`random.choice`) and `shufD`/`shufC`
stand for the two `random.shuffle` calls; theorems restrict them to
permutations. -/
def generateQuiz (entries : List Record) (numChoices : Nat) (pick : Nat)
    (shufD : List Record → List Record)
    (shufC : List (List Char) → List (List Char)) :
    QuizResult :=
  match entries with
  | [] => QuizResult.err "No phrases available for quiz.".toList
  | e0 :: _ =>
    let correct := entries.getD pick e0
    let correct_phrase :=
      if correct.phrase ≠ [] then correct.phrase
      else
        match extractCanonicalPhraseRA correct with
        | some c => c
        | none => []
    let correct_meaning := correct.meaning
    let pool := entries.filter (fun e => lowerStr e.phrase ≠ lowerStr correct_phrase)
    let distractors := (shufD pool).take (numChoices - 1)
    let choices0 := distractors.map (fun d => if d.meaning ≠ [] then d.meaning else [])
    let choices := shufC (choices0 ++ [correct_meaning])
    let correct_index : Int :=
      if correct_meaning ∈ choices then ((pyIndex correct_meaning choices : Nat) : Int)
      else -1
    QuizResult.ok
      { question := "What is the best meaning of the phrase: ".toList ++ [apos] ++
          correct_phrase ++ [apos] ++ "?".toList
        phrase := correct_phrase
        choices := choices
        correct_index := correct_index }

/-- `[:\s]*` run of the normalizer label patterns. -/
def dropColonWs (s : List Char) : List Char :=
  s.dropWhile (fun c => c = ':' || pyIsSpace c)

/-- Tail `<<([^>]+)>>` after `[:\s]*` (deterministic: `<` is not in `[:\s]`). -/
def anglesAfterColonWs (t : List Char) : Option (List Char) :=
  matchAnglesAt (dropColonWs t)

/-- Alternation tail `"?([^\n<"]+)"?` of the loose normalizer label patterns. -/
def quoteCapNoLt (u : List Char) : Option (List Char) :=
  match u with
  | '"' :: v =>
    let cap := v.takeWhile (fun c => !(c = '\n' || c = '<' || c = '"'))
    if cap.isEmpty then none else some cap
  | _ =>
    let cap := u.takeWhile (fun c => !(c = '\n' || c = '<' || c = '"'))
    if cap.isEmpty then none else some cap

/-- Give-back over a `[:\s]*` run followed by `alt`. -/
def afterColonWs (alt : List Char → Option α) (t : List Char) : Option α :=
  firstDropDesc alt t ((t.takeWhile (fun c => c = ':' || pyIsSpace c)).length)

/-- Tail `<?strong>?>?\s*([^<\n]+)` of normalizer label pattern 5. -/
def lessonTail (t : List Char) : Option (List Char) :=
  let t1 := match t with
    | '<' :: rest => rest
    | _ => t
  match stripPrefixCI "strong".toList t1 with
  | some t2 =>
    let t3 := match t2 with
      | '>' :: rest => rest
      | _ => t2
    let t4 := match t3 with
      | '>' :: rest => rest
      | _ => t3
    firstDropDesc
      (fun u =>
        let cap := u.takeWhile (fun c => !(c = '<' || c = '\n'))
        if cap.isEmpty then none else some cap)
      t4 ((t4.takeWhile pyIsSpace).length)
  | none => none

/-- Normalizer label pattern 1: `Suggested colloquial phrase[:\s]*<<([^>]+)>>`. -/
def matchNormP1At (s : List Char) : Option (List Char) :=
  match stripPrefixCI "suggested colloquial phrase".toList s with
  | some t => anglesAfterColonWs t
  | none => none

/-- Normalizer label pattern 2: `Suggested colloquial phrase[:\s]*"?([^\n<"]+)"?`. -/
def matchNormP2At (s : List Char) : Option (List Char) :=
  match stripPrefixCI "suggested colloquial phrase".toList s with
  | some t => afterColonWs quoteCapNoLt t
  | none => none

/-- Normalizer label pattern 3: `Phrase to learn[:\s]*<<([^>]+)>>`. -/
def matchNormP3At (s : List Char) : Option (List Char) :=
  match stripPrefixCI "phrase to learn".toList s with
  | some t => anglesAfterColonWs t
  | none => none

/-- Normalizer label pattern 4: `Phrase to learn[:\s]*"?([^\n<"]+)"?`. -/
def matchNormP4At (s : List Char) : Option (List Char) :=
  match stripPrefixCI "phrase to learn".toList s with
  | some t => afterColonWs quoteCapNoLt t
  | none => none

/-- Normalizer label pattern 5: `LESSON[:\s]*<?strong>?>?\s*([^<\n]+)`. -/
def matchNormP5At (s : List Char) : Option (List Char) :=
  match stripPrefixCI "lesson".toList s with
  | some t => afterColonWs lessonTail t
  | none => none

/-- Normalizer HTML label: `Suggested colloquial phrase[:\s]*<strong>([^<]+)</strong>`. -/
def matchNormHtmlAt (s : List Char) : Option (List Char) :=
  match stripPrefixCI "suggested colloquial phrase".toList s with
  | some t => matchStrongAt (dropColonWs t)
  | none => none

/-- `normalize_memory.extract_canonical(lesson_text, lesson_html, stored_phrase)`. -/
def extractCanonicalNM (lesson_text lesson_html stored_phrase : List Char) : List Char :=
  match searchA matchNormP1At lesson_text with
  | some cap => pyStrip cap
  | none =>
  match searchA matchNormP2At lesson_text with
  | some cap => pyStrip cap
  | none =>
  match searchA matchNormP3At lesson_text with
  | some cap => pyStrip cap
  | none =>
  match searchA matchNormP4At lesson_text with
  | some cap => pyStrip cap
  | none =>
  match searchA matchNormP5At lesson_text with
  | some cap => pyStrip cap
  | none =>
  match searchA matchNormHtmlAt lesson_html with
  | some cap => pyStrip cap
  | none =>
  match searchA matchAnglesAt lesson_text with
  | some cap => pyStrip cap
  | none =>
  match searchA matchStrongAt lesson_html with
  | some cap => pyStrip cap
  | none => stored_phrase

/-- Capture `([^\n\.]+)` of the normalizer definition patterns. -/
def defCapNM (u : List Char) : Option (List Char) :=
  let cap := u.takeWhile (fun c => !(c = '\n' || c = '.'))
  if cap.isEmpty then none else some cap

/-- Give-back over a `[:\-\s]*` run followed by `alt`. -/
def afterColonDashWs (alt : List Char → Option α) (t : List Char) : Option α :=
  firstDropDesc alt t
    ((t.takeWhile (fun c => c = ':' || c = '-' || pyIsSpace c)).length)

/-- Normalizer definition pattern: `Definition[:\-\s]*([^\n\.]+)`. -/
def matchDefNMAt (s : List Char) : Option (List Char) :=
  match stripPrefixCI "definition".toList s with
  | some t => afterColonDashWs defCapNM t
  | none => none

/-- Normalizer definition pattern: `Meaning[:\-\s]*([^\n\.]+)`. -/
def matchMeaningNMAt (s : List Char) : Option (List Char) :=
  match stripPrefixCI "meaning".toList s with
  | some t => afterColonDashWs defCapNM t
  | none => none

/-- Normalizer definition pattern: `is usually defined as (.*?)\.` — lazy
capture up to the first dot on the same line. -/
def matchUsuallyAt (s : List Char) : Option (List Char) :=
  match stripPrefixCI "is usually defined as ".toList s with
  | some t =>
    let seg := t.takeWhile (fun c => c ≠ '\n')
    let cap := seg.takeWhile (fun c => c ≠ '.')
    if cap.length < seg.length then some cap else none
  | none => none

/-- `normalize_memory.extract_meaning(lesson_text, lesson_html, stored_meaning)`. -/
def extractMeaningNM (lesson_text lesson_html stored_meaning : List Char) : List Char :=
  match searchA matchDefNMAt lesson_text with
  | some cap => pyStrip cap
  | none =>
  match searchA matchDefNMAt lesson_html with
  | some cap => pyStrip cap
  | none =>
  match searchA matchMeaningNMAt lesson_text with
  | some cap => pyStrip cap
  | none =>
  match searchA matchMeaningNMAt lesson_html with
  | some cap => pyStrip cap
  | none =>
  match searchA matchUsuallyAt lesson_text with
  | some cap => pyStrip cap
  | none =>
  match searchA matchUsuallyAt lesson_html with
  | some cap => pyStrip cap
  | none => stored_meaning

/-- `re.sub(r'^\d+\.\s*', '', s)`. -/
def stripLeadingEnum (s : List Char) : List Char :=
  let ds := s.takeWhile (fun c => '0' ≤ c && c ≤ '9')
  if ds.isEmpty then s
  else
    match s.drop ds.length with
    | '.' :: rest => rest.dropWhile pyIsSpace
    | _ => s

/-- `normalize_memory.clean_context(text)`. -/
def cleanContext (s : List Char) : List Char :=
  if s = [] then s
  else pyStrip (stripLeadingEnum (replace2 '*' '*' [] s))

/-- One entry of `normalize_memory.normalize()`: the updated record together
with its contribution to the `changed` flag (context-field cleaning does not
touch the flag). -/
def normalizeEntry (e : Record) : Record × Bool :=
  let lesson_text := e.lesson_text.getD []
  let lesson_html := e.lesson_html.getD []
  let canon := extractCanonicalNM lesson_text lesson_html e.phrase
  let ph := if canon ≠ [] && canon ≠ e.phrase then (canon, true) else (e.phrase, false)
  let meaning0 := extractMeaningNM lesson_text lesson_html e.meaning
  let me :=
    if meaning0 ≠ [] && meaning0 ≠ e.meaning then (meaning0, true) else (e.meaning, false)
  let sc :=
    match e.source_context with
    | some v =>
      if v ≠ [] then
        if containsSub "**".toList v || containsSub "Corrected".toList v then
          ((none : Option (List Char)), true)
        else (some (cleanContext v), false)
      else (some v, false)
    | none => (none, false)
  let cc2 :=
    match e.corrected_context with
    | some v => if v ≠ [] then some (cleanContext v) else some v
    | none => none
  ({ e with
      phrase := ph.1
      meaning := me.1
      source_context := sc.1
      corrected_context := cc2 },
    ph.2 || me.2 || sc.2)

/-- `normalize_memory.normalize()` over the in-memory store: the rewritten
records and whether the backing file is rewritten at the end. -/
def normalizeMem (mem : List Record) : List Record × Bool :=
  let results := mem.map normalizeEntry
  (results.map Prod.fst, results.any Prod.snd)

/-- Split at the first `---` separator (Python `s.split('---')`, of which the
caller uses only parts 0 and 1): the segment before the separator, and the
remainder after it when a separator exists. -/
def splitSepHead : List Char → List Char × Option (List Char)
  | '-' :: '-' :: '-' :: rest => ([], some rest)
  | c :: rest =>
    let p := splitSepHead rest
    (c :: p.1, p.2)
  | [] => ([], none)

/-- Teaching rule 1: `Phrase to learn:\s*<<([^>]+)>>` (case-insensitive). -/
def matchTeachP1At (s : List Char) : Option (List Char) :=
  match stripPrefixCI "phrase to learn:".toList s with
  | some t => matchAnglesAt (t.dropWhile pyIsSpace)
  | none => none

/-- Alternation tail `"?([^\n"]+)"?`. -/
def quoteCapNoNl (u : List Char) : Option (List Char) :=
  match u with
  | '"' :: v =>
    let cap := v.takeWhile (fun c => !(c = '\n' || c = '"'))
    if cap.isEmpty then none else some cap
  | _ =>
    let cap := u.takeWhile (fun c => !(c = '\n' || c = '"'))
    if cap.isEmpty then none else some cap

/-- Teaching rule 2: `Phrase to learn:\s*"?([^\n"]+)"?` (case-insensitive). -/
def matchTeachP2At (s : List Char) : Option (List Char) :=
  match stripPrefixCI "phrase to learn:".toList s with
  | some t => firstDropDesc quoteCapNoNl t ((t.takeWhile pyIsSpace).length)
  | none => none

/-- Teaching rule 3 trigger: `Definition:\s*([^\n]+)` (case-insensitive). -/
def matchTeachDefAt (s : List Char) : Option (List Char) :=
  match stripPrefixCI "definition:".toList s with
  | some t =>
    firstDropDesc
      (fun u =>
        let cap := u.takeWhile (fun c => c ≠ '\n')
        if cap.isEmpty then none else some cap)
      t ((t.takeWhile pyIsSpace).length)
  | none => none

/-- The quote class `["\']` of the quoted-span rule. -/
def isQuoteChar (c : Char) : Bool := c = '"' || c = apos

/-- Teaching rule 4: `["\']([^"\']+)["\']` — a quoted span (leftmost). -/
def matchQuotedAt (s : List Char) : Option (List Char) :=
  match s with
  | c :: rest =>
    if isQuoteChar c then
      let cap := rest.takeWhile (fun d => !isQuoteChar d)
      if cap.isEmpty then none
      else
        match rest.drop cap.length with
        | d :: _ => if isQuoteChar d then some cap else none
        | [] => none
    else none
  | [] => none

/-- Word characters for the `\b` boundary of the trailing-`is` pattern. -/
def isWordChar (c : Char) : Bool :=
  ('a' ≤ c && c ≤ 'z') || ('A' ≤ c && c ≤ 'Z') || ('0' ≤ c && c ≤ '9') || c = '_'

/-- `re.sub(r"\b(?:is|is:)$", "", s, IGNORECASE)`: remove a final `is` or
`is:` token preceded by a word boundary. -/
def stripTrailingIs (s : List Char) : List Char :=
  let r := s.reverse
  let chopColon : Option (List Char) :=
    match r with
    | ':' :: c1 :: c2 :: rest =>
      if c1.toLower = 's' && c2.toLower = 'i' &&
          (match rest with | [] => true | d :: _ => !isWordChar d) then
        some rest
      else none
    | _ => none
  match chopColon with
  | some rest => rest.reverse
  | none =>
    match r with
    | c1 :: c2 :: rest =>
      if c1.toLower = 's' && c2.toLower = 'i' &&
          (match rest with | [] => true | d :: _ => !isWordChar d) then
        rest.reverse
      else s
    | _ => s

/-- Teaching rule 5: `\*\*([^\*]+)\*\*` — a bold span. -/
def matchBoldAt (s : List Char) : Option (List Char) :=
  match s with
  | '*' :: '*' :: rest =>
    let cap := rest.takeWhile (fun c => c ≠ '*')
    if cap.isEmpty then none
    else
      match rest.drop cap.length with
      | '*' :: '*' :: _ => some cap
      | _ => none
  | _ => none

/-- The phrase character class `[A-Za-z\'\- ]` of teaching rule 6. -/
def isPhraseChar (c : Char) : Bool :=
  ('a' ≤ c && c ≤ 'z') || ('A' ≤ c && c ≤ 'Z') || c = apos || c = '-' || c = ' '

/-- Teaching rule 6: `([A-Za-z\'\- ]{2,})\s*\(replaces[:\s]+[^)]+\)`
(case-insensitive). -/
def matchParenPlainAt (s : List Char) : Option (List Char) :=
  let run := s.takeWhile isPhraseChar
  if run.length < 2 then none
  else
    match (s.drop run.length).dropWhile pyIsSpace with
    | '(' :: t1 =>
      match stripPrefixCI "replaces".toList t1 with
      | some t2 =>
        let w := t2.takeWhile (fun c => c = ':' || pyIsSpace c)
        if w.isEmpty then none
        else
          let ok := firstDropDesc
            (fun u =>
              let cap := u.takeWhile (fun c => c ≠ ')')
              if cap.isEmpty then none
              else
                match u.drop cap.length with
                | ')' :: _ => some ()
                | _ => none)
            (t2.drop 1) (w.length - 1)
          match ok with
          | some _ => some run
          | none => none
      | none => none
    | _ => none

/-- Teaching rule 7: `\*\*?([^\*\(\n]+)\*\*?\s*\(replaces\s*\*([^\*)]+)\*\)`
(case-insensitive); the first capture is returned. -/
def matchParenEmphAt (s : List Char) : Option (List Char) :=
  match s with
  | '*' :: s1 =>
    let s2 := match s1 with
      | '*' :: r => r
      | _ => s1
    let cap := s2.takeWhile (fun c => !(c = '*' || c = '(' || c = '\n'))
    if cap.isEmpty then none
    else
      match s2.drop cap.length with
      | '*' :: t1 =>
        let t2 := match t1 with
          | '*' :: r => r
          | _ => t1
        match t2.dropWhile pyIsSpace with
        | '(' :: t4 =>
          match stripPrefixCI "replaces".toList t4 with
          | some t5 =>
            match t5.dropWhile pyIsSpace with
            | '*' :: t7 =>
              let cap2 := t7.takeWhile (fun c => !(c = '*' || c = ')'))
              if cap2.isEmpty then none
              else
                match t7.drop cap2.length with
                | '*' :: ')' :: _ => some cap
                | _ => none
            | _ => none
          | none => none
        | _ => none
      | _ => none
  | _ => none

/-- Teaching rule 8: `Suggested Colloquial Phrase[:\s]*\n?(.+)` (case-insensitive). -/
def matchHdrAt (s : List Char) : Option (List Char) :=
  match stripPrefixCI "suggested colloquial phrase".toList s with
  | some t =>
    firstDropDesc
      (fun u =>
        let u1 := match u with
          | '\n' :: r => r
          | _ => u
        let cap := u1.takeWhile (fun c => c ≠ '\n')
        if cap.isEmpty then none else some cap)
      t ((t.takeWhile (fun c => c = ':' || pyIsSpace c)).length)
  | none => none

/-- `re.sub(r'[\*`_\[\]]', '', line)`. -/
def stripMdChars (s : List Char) : List Char :=
  s.filter (fun c => !(c = '*' || c = btick || c = '_' || c = '[' || c = ']'))

/-- The token character class `[A-Za-z' ]` of teaching rule 9 (no hyphen). -/
def isTokenChar (c : Char) : Bool :=
  ('a' ≤ c && c ≤ 'z') || ('A' ≤ c && c ≤ 'Z') || c = apos || c = ' '

/-- Fuelled `re.findall(r"[A-Za-z' ]{2,}", s)`: maximal runs of letters,
apostrophes and spaces of length at least 2; every step consumes at least
one character. -/
def findTokenRunsGo : Nat → List Char → List (List Char)
  | 0, _ => []
  | fuel + 1, s =>
    match s with
    | [] => []
    | _ :: _ =>
      let run := s.takeWhile isTokenChar
      if run.length ≥ 2 then run :: findTokenRunsGo fuel (s.drop run.length)
      else findTokenRunsGo fuel (s.drop (max run.length 1))

/-- `re.findall(r"[A-Za-z' ]{2,}", s)`. -/
def findTokenRuns (s : List Char) : List (List Char) :=
  findTokenRunsGo (s.length + 1) s

/-- `re.sub(r'^\d+\.?\s*', '', s)` (rule 6's enumeration strip: optional dot). -/
def stripLeadingEnumOptDot (s : List Char) : List Char :=
  let ds := s.takeWhile (fun c => '0' ≤ c && c ≤ '9')
  if ds.isEmpty then s
  else
    let t := s.drop ds.length
    let t2 := match t with
      | '.' :: r => r
      | _ => t
    t2.dropWhile pyIsSpace

/-- Python `str.split()`: whitespace-separated words, no empties. -/
def pyWords (s : List Char) : List (List Char) :=
  (s.splitOnP pyIsSpace).filter (fun w => w ≠ [])

/-- Teaching rule 9: the last short token run (2 to 4 words) in the block. -/
def tokenFallback (block corrected : List Char) : Option (List Char × List Char) :=
  let tokens := findTokenRuns block
  match tokens.getLast? with
  | some lastTok =>
    let candidate := pyStrip lastTok
    let n := (pyWords candidate).length
    if 1 < n && n ≤ 4 then some (candidate, corrected) else none
  | none => none

/-- `main.extract_phrase_for_teaching(corrector_output)`: the full cascade over
the suggestion block, returning `(extracted phrase, corrected text)`. -/
def extractPhraseForTeaching (s : List Char) : Option (List Char × List Char) :=
  if s = [] then none
  else
    let p := splitSepHead s
    let cb : List Char × List Char :=
      match p.2 with
      | some rest => (pyStrip p.1, pyStrip (splitSepHead rest).1)
      | none => (pyStrip s, [])
    let corrected := cb.1
    let block := cb.2
    match searchA matchTeachP1At block with
    | some cap => some (pyStrip cap, corrected)
    | none =>
    match searchA matchTeachP2At block with
    | some cap => some (pyStrip cap, corrected)
    | none =>
    match
      (match searchA matchTeachDefAt block with
       | some _ =>
         match searchA matchAnglesAt block with
         | some q => some (pyStrip q)
         | none => none
       | none => none) with
    | some cap => some (cap, corrected)
    | none =>
    match searchA matchQuotedAt block with
    | some cap =>
      let s1 := pyStrip cap
      let s2 := pyStrip (stripTrailingIs s1)
      some (stripLeadingEnum s2, corrected)
    | none =>
    match searchA matchBoldAt block with
    | some cap => some (pyStrip (stripTrailingIs (pyStrip cap)), corrected)
    | none =>
    match searchA matchParenPlainAt block with
    | some cap =>
      let s1 := pyStrip cap
      let s2 := pyStrip (stripTrailingIs s1)
      some (stripLeadingEnumOptDot s2, corrected)
    | none =>
    match searchA matchParenEmphAt block with
    | some cap => some (pyStrip cap, corrected)
    | none =>
    match searchA matchHdrAt block with
    | some cap =>
      let line := stripMdChars (pyStrip cap)
      if line ≠ [] then some (line, corrected)
      else tokenFallback block corrected
    | none => tokenFallback block corrected

/-- The case-insensitive uniqueness invariant of the store: no two records
have phrases equal after lowercasing and trimming. -/
def storeInv (mem : List Record) : Prop :=
  mem.Pairwise (fun a b => normP a.phrase ≠ normP b.phrase)

instance storeInvDecidable (mem : List Record) : Decidable (storeInv mem) :=
  List.instDecidablePairwise mem

/-- First non-`none` entry of a rule cascade. -/
def firstSome : List (Option (List Char)) → Option (List Char)
  | [] => none
  | some r :: _ => some r
  | none :: rest => firstSome rest

/-- Trim a capture; an empty result counts as no match. -/
def stripOrNone (cap : List Char) : Option (List Char) :=
  if pyStrip cap = [] then none else some (pyStrip cap)

/-- Cascade rule: labelled phrase line, empty-after-trim treated as no match. -/
def ruleLabel (text : List Char) : Option (List Char) :=
  (searchA matchLabelAt text).bind stripOrNone

/-- Cascade rule: first `<<...>>` span, empty-after-trim treated as no match. -/
def ruleAngles (text : List Char) : Option (List Char) :=
  (searchA matchAnglesAt text).bind stripOrNone

/-- Cascade rule: first `<strong>` span, empty-after-trim treated as no match. -/
def ruleStrong (html : List Char) : Option (List Char) :=
  (searchA matchStrongAt html).bind stripOrNone

/-- The claim's cascade for the read-side resolver: (1) label in plain text,
(2) emphasis span in plain text, (3) strong span in the HTML, (4) label on
the tag-stripped HTML, (5) the caller-supplied fallback phrase; each
empty-after-trim match cascades on to the next rule. -/
def claimCascade (item : Record) : Option (List Char) :=
  firstSome
    [ruleLabel (item.lesson_text.getD []),
     ruleAngles (item.lesson_text.getD []),
     ruleStrong (item.lesson_html.getD []),
     ruleLabel (stripTags (item.lesson_html.getD [])),
     if item.phrase = [] then none else some item.phrase]

/-- The store extractor's actual cascade, in the claim's style: a labelled
match short-circuits the whole cascade even when its capture trims to
empty, and in the HTML branch the tag-stripped label search runs before the
strong-span rule. -/
def mbCascade (lesson_text lesson_html : Option (List Char)) : Option (List Char) :=
  let text := lesson_text.getD []
  let html := lesson_html.getD []
  match (if text = [] then none else searchA matchLabelAt text) with
  | some cap => stripOrNone cap
  | none =>
    match (if text = [] then none else ruleAngles text) with
    | some r => some r
    | none =>
      match (if html = [] then none else searchA matchLabelAt (stripTags html)) with
      | some cap => stripOrNone cap
      | none => if html = [] then none else ruleStrong html

/-- A non-empty string with no leading or trailing whitespace. -/
def tidy (s : List Char) : Bool :=
  (match s.head? with
   | some c => !pyIsSpace c
   | none => false) &&
  (match s.getLast? with
   | some c => !pyIsSpace c
   | none => false)

/-- No two adjacent whitespace characters. -/
def noAdjWs : List Char → Bool
  | a :: b :: rest => !(pyIsSpace a && pyIsSpace b) && noAdjWs (b :: rest)
  | _ => true

/-- No adjacent pair equal to the two given characters. -/
def noPair (a b : Char) : List Char → Bool
  | x :: y :: rest => !(x = a && y = b) && noPair a b (y :: rest)
  | _ => true

/-- Well-formedness of one example line of the standardized layout: trimmed
and non-empty, longer than 5 characters, free of newlines and emphasis
markup, not starting with a bullet/numbering character, and with no doubled
whitespace — so that the extraction cleanup passes leave it unchanged. -/
def cleanExample (s : List Char) : Bool :=
  tidy s && decide (5 < s.length) &&
  s.all (fun c => !(c = '\n' || c = '<')) &&
  (match s.head? with
   | some c => !isBulletChar c
   | none => false) &&
  noAdjWs s

/-- No terminator of the examples-block pattern occurs inside the string:
every newline is followed by a non-newline and by neither `Lesson:` nor
`Usage` (case-insensitively), so the lazy capture runs to the end. -/
def exBlockSafe : List Char → Bool
  | [] => true
  | c :: rest =>
    (!(c = '\n') ||
      (match rest with
       | [] => false
       | d :: _ =>
         !(d = '\n') && !isPrefixCI "lesson:".toList rest &&
           !isPrefixCI "usage".toList rest)) &&
      exBlockSafe rest

/-- The optional trailing `Notes:` line of the standardized layout. -/
def notesTail : Option (List Char) → List Char
  | some t => '\n' :: ("Notes: ".toList ++ t)
  | none => []

/-- The standardized lesson-text layout of §6: the labelled lines
`What to improve:`, `Phrase to learn: <<P>>`, `Definition: D`, `Examples:`
followed by two example lines and an optional trailing `Notes:` line. -/
def layout (note P D E1 E2 : List Char) (notes : Option (List Char)) : List Char :=
  "What to improve: ".toList ++ note ++ '\n' ::
    ("Phrase to learn: ".toList ++ '<' :: '<' ::
      (P ++ '>' :: '>' :: '\n' ::
        ("Definition: ".toList ++ D ++ '\n' ::
          ("Examples:".toList ++ '\n' ::
            (E1 ++ '\n' :: (E2 ++ notesTail notes))))))

/-- Sample record used by concrete witnesses. -/
def sampleRec1 : Record :=
  { phrase := "spill the beans".toList, meaning := "to reveal a secret".toList }

/-- Second sample record used by concrete witnesses. -/
def sampleRec2 : Record :=
  { phrase := "hang in there".toList, meaning := "do not give up".toList }

/-- A record whose lesson text is in the standardized §6 layout but whose
free-text improvement note itself contains a `Definition:` label. -/
def c3CounterItem : Record :=
  { lesson_text := some (layout "fix the Definition: wording".toList
      "hang in there".toList
      "to persevere and not give up".toList
      "Hang in there, it gets better.".toList
      "She told me to hang in there.".toList
      none) }

/-- A record holding a well-formed standardized §6 lesson, with a trailing
`Notes:` line. -/
def c3Item : Record :=
  { lesson_text := some (layout "(none)".toList
      "hang in there".toList
      "to persevere and not give up".toList
      "Hang in there, it gets better.".toList
      "She told me to hang in there.".toList
      (some "Use it to encourage someone.".toList)) }

/-! ## Helper lemmas -/

/-- If the updater preserves phrases, `updateFirstMatch` preserves the list of
stored phrases. -/
theorem updateFirstMatch_phrases (fn : List Char) (upd : Record → Record)
    (hupd : ∀ r, (upd r).phrase = r.phrase) :
    ∀ mem mem2, updateFirstMatch fn upd mem = some mem2 →
      mem2.map Record.phrase = mem.map Record.phrase := by
  intro mem
  induction mem with
  | nil => intro mem2 h; simp [updateFirstMatch] at h
  | cons r rs ih =>
    intro mem2 h
    unfold updateFirstMatch at h
    by_cases hc : normP r.phrase = fn
    · simp [hc] at h
      subst h
      simp [hupd]
    · simp [hc] at h
      obtain ⟨l, hl, rfl⟩ := h
      simp [ih l hl]

/-- When `updateFirstMatch` finds nothing, no stored phrase normalises to the key. -/
theorem updateFirstMatch_none (fn : List Char) (upd : Record → Record) :
    ∀ mem, updateFirstMatch fn upd mem = none → ∀ r ∈ mem, normP r.phrase ≠ fn := by
  intro mem
  induction mem with
  | nil => intro _ r hr; simp at hr
  | cons a rs ih =>
    intro h r hr
    unfold updateFirstMatch at h
    by_cases hc : normP a.phrase = fn
    · simp [hc] at h
    · simp [hc] at h
      rcases List.mem_cons.mp hr with rfl | hr2
      · exact hc
      · exact ih h r hr2

/-- `storeInv` only depends on the list of stored phrases. -/
theorem storeInv_of_map_eq {mem mem2 : List Record}
    (h : mem2.map Record.phrase = mem.map Record.phrase) (hinv : storeInv mem) :
    storeInv mem2 := by
  unfold storeInv at *
  have h1 : (mem.map Record.phrase).Pairwise (fun a b => normP a ≠ normP b) := by
    rw [List.pairwise_map]
    exact hinv
  rw [← h, List.pairwise_map] at h1
  exact h1

/-- Walking `updateFirstMatch` past a non-matching prefix updates the first
matching record in place. -/
theorem updateFirstMatch_split (fn : List Char) (upd : Record → Record)
    (pre : List Record) (r : Record) (post : List Record)
    (hpre : ∀ x ∈ pre, normP x.phrase ≠ fn) (hr : normP r.phrase = fn) :
    updateFirstMatch fn upd (pre ++ r :: post) = some (pre ++ upd r :: post) := by
  induction pre with
  | nil => simp [updateFirstMatch, hr]
  | cons a ps ih =>
    have ha := hpre a (by simp)
    have ih2 := ih (fun x hx => hpre x (by simp [hx]))
    simp [updateFirstMatch, ha, ih2]

/-- `takeWhile` runs through a satisfying prefix up to the first failure. -/
theorem takeWhile_append_stop {p : Char → Bool} {xs : List Char}
    (h : ∀ c ∈ xs, p c = true) {y : Char} (hy : p y = false) (ys : List Char) :
    (xs ++ y :: ys).takeWhile p = xs := by
  induction xs with
  | nil => simp [List.takeWhile_cons, hy]
  | cons a as ih =>
    have ha := h a (by simp)
    simp [List.takeWhile_cons, ha, ih (fun c hc => h c (by simp [hc]))]

/-- `dropWhile` counterpart of `takeWhile_append_stop`. -/
theorem dropWhile_append_stop {p : Char → Bool} {xs : List Char}
    (h : ∀ c ∈ xs, p c = true) {y : Char} (hy : p y = false) (ys : List Char) :
    (xs ++ y :: ys).dropWhile p = y :: ys := by
  induction xs with
  | nil => simp [List.dropWhile_cons, hy]
  | cons a as ih =>
    have ha := h a (by simp)
    simp [List.dropWhile_cons, ha, ih (fun c hc => h c (by simp [hc]))]

/-- `re.search` skips a prefix on which the matcher fails at every offset. -/
theorem searchA_append_none {α : Type} (m : List Char → Option α) :
    ∀ (pre post : List Char),
      (∀ n, n < pre.length → m (List.drop n (pre ++ post)) = none) →
      searchA m (pre ++ post) = searchA m post := by
  intro pre
  induction pre with
  | nil => intro post _; rfl
  | cons c cs ih =>
    intro post h
    have h0 := h 0 (by simp)
    simp only [List.drop_zero, List.cons_append] at h0
    show searchA m (c :: (cs ++ post)) = searchA m post
    have hstep : searchA m (c :: (cs ++ post)) =
        match m (c :: (cs ++ post)) with
        | some r => some r
        | none => searchA m (cs ++ post) := rfl
    rw [hstep, h0]
    exact ih post (fun n hn => by
      have h2 := h (n + 1) (by simpa using Nat.succ_lt_succ hn)
      simpa using h2)

/-- `lstrip` keeps a string whose head is not whitespace. -/
theorem lstrip_id_of_head {c : Char} (s : List Char) (hc : pyIsSpace c = false) :
    lstrip (c :: s) = c :: s := by
  simp [lstrip, List.dropWhile_cons, hc]

/-- `rstrip` keeps a string whose last character is not whitespace. -/
theorem rstrip_id_of_last {s : List Char}
    (h : ∀ c, s.getLast? = some c → pyIsSpace c = false) : rstrip s = s := by
  unfold rstrip
  cases hs : s.reverse with
  | nil =>
    have : s = [] := by simpa using congrArg List.reverse hs
    simp [this]
  | cons c cs =>
    have hlast : s.getLast? = some c := by
      rw [← List.head?_reverse, hs]
      rfl
    have hc := h c hlast
    rw [List.dropWhile_cons]
    simp only [hc, Bool.false_eq_true, if_false]
    rw [← hs, List.reverse_reverse]

/-- A tidy string survives `pyStrip` unchanged. -/
theorem tidy_strip {s : List Char} (h : tidy s = true) : pyStrip s = s := by
  unfold tidy at h
  rw [Bool.and_eq_true] at h
  cases s with
  | nil => simp at h
  | cons c rest =>
    have h1 : pyIsSpace c = false := by
      have := h.1
      simp only [List.head?] at this
      simpa using this
    unfold pyStrip
    rw [lstrip_id_of_head rest h1]
    apply rstrip_id_of_last
    intro d hd
    have h2 := h.2
    rw [hd] at h2
    simpa using h2

/-- A tidy string is non-empty. -/
theorem tidy_ne_nil {s : List Char} (h : tidy s = true) : s ≠ [] := by
  intro hs
  subst hs
  simp [tidy] at h

/-- Emphasis substitution is the identity on marker-free strings. -/
theorem substAnglesGo_id (canon : List Char) : ∀ (fuel : Nat) (s : List Char),
    s.all (fun c => !(c = '<')) = true → substAnglesGo canon fuel s = s := by
  intro fuel
  induction fuel with
  | zero => intro s _; rfl
  | succ n ih =>
    intro s h
    unfold substAnglesGo
    split
    · simp at h
    · simp only [List.all_cons, Bool.and_eq_true] at h
      congr 1
      exact ih _ h.2
    · rfl

/-- `replace2` is the identity when the two-character pattern never occurs. -/
theorem replace2_id_of_noPair (a b : Char) (repl : List Char) :
    ∀ s, noPair a b s = true → replace2 a b repl s = s := by
  intro s
  induction s with
  | nil => intro _; rfl
  | cons x rest ih =>
    intro h
    cases rest with
    | nil => rfl
    | cons y rest2 =>
      unfold noPair at h
      rw [Bool.and_eq_true] at h
      obtain ⟨h1, h2⟩ := h
      rw [Bool.not_eq_true'] at h1
      unfold replace2
      rw [h1]
      simp only [Bool.false_eq_true, if_false]
      rw [ih h2]

/-- Absence of the first pattern character rules out the pair. -/
theorem noPair_of_all_fst (a b : Char) :
    ∀ s, s.all (fun c => !(c = a)) = true → noPair a b s = true := by
  intro s
  induction s with
  | nil => intro _; rfl
  | cons x rest ih =>
    intro h
    simp only [List.all_cons, Bool.and_eq_true] at h
    cases rest with
    | nil => rfl
    | cons y rest2 =>
      unfold noPair
      rw [Bool.and_eq_true]
      constructor
      · have hx : ¬x = a := by simpa using h.1
        simp [hx]
      · exact ih h.2

/-- No doubled whitespace rules out the double-space pair. -/
theorem noPair_space_of_noAdjWs :
    ∀ s, noAdjWs s = true → noPair ' ' ' ' s = true := by
  intro s
  induction s with
  | nil => intro _; rfl
  | cons x rest ih =>
    intro h
    cases rest with
    | nil => rfl
    | cons y rest2 =>
      unfold noAdjWs at h
      rw [Bool.and_eq_true] at h
      unfold noPair
      rw [Bool.and_eq_true]
      constructor
      · have := h.1
        by_cases hx : x = ' ' <;> by_cases hy : y = ' ' <;> simp_all [pyIsSpace]
      · exact ih h.2

/-- Whitespace-run collapsing is the identity without doubled whitespace. -/
theorem collapseWsRunsGo_id : ∀ (fuel : Nat) (s : List Char),
    noAdjWs s = true → collapseWsRunsGo fuel s = s := by
  intro fuel
  induction fuel with
  | zero => intro s _; rfl
  | succ n ih =>
    intro s h
    unfold collapseWsRunsGo
    split
    · simp only [noAdjWs, Bool.and_eq_true] at h
      obtain ⟨h1, h2⟩ := h
      rw [Bool.not_eq_true'] at h1
      rw [h1]
      simp only [Bool.false_eq_true, if_false]
      congr 1
      exact ih _ h2
    · rfl

/-- Bullet stripping keeps a line that does not start with a bullet char. -/
theorem bulletStrip_id {c : Char} (s : List Char) (h : isBulletChar c = false) :
    bulletStrip (c :: s) = c :: s := by
  simp [bulletStrip, List.dropWhile_cons, h]

/-- A case-insensitive literal prefix is consumed exactly. -/
theorem stripPrefixCI_of_eq : ∀ (pat xs : List Char), lowerStr pat = lowerStr xs →
    ∀ rest, stripPrefixCI pat (xs ++ rest) = some rest := by
  intro pat
  induction pat with
  | nil =>
    intro xs h rest
    have hxs : xs = [] := by simpa [lowerStr] using h.symm
    subst hxs
    cases rest <;> rfl
  | cons p ps ih =>
    intro xs h rest
    cases xs with
    | nil => simp [lowerStr] at h
    | cons x xs2 =>
      simp only [lowerStr, List.map_cons, List.cons.injEq] at h
      show stripPrefixCI (p :: ps) (x :: (xs2 ++ rest)) = some rest
      unfold stripPrefixCI
      rw [if_pos h.1]
      exact ih xs2 h.2 rest

/-- `re.search` succeeds immediately when the matcher fires at the head. -/
theorem searchA_cons_some {α : Type} (m : List Char → Option α) (c : Char)
    (rest : List Char) (r : α) (h : m (c :: rest) = some r) :
    searchA m (c :: rest) = some r := by
  unfold searchA
  rw [h]

/-- `firstDropDesc` at zero just applies the matcher in place. -/
theorem firstDropDesc_zero {α : Type} (f : List Char → Option α) (t : List Char) :
    firstDropDesc f t 0 = f t := rfl

/-- `firstDropDesc` returns the first success, tried at the deepest drop. -/
theorem firstDropDesc_succ_some {α : Type} (f : List Char → Option α)
    (t : List Char) (j : Nat) (r : α) (h : f (t.drop (j + 1)) = some r) :
    firstDropDesc f t (j + 1) = some r := by
  unfold firstDropDesc
  rw [h]

/-- The emphasis branch of the label alternation captures the span body. -/
theorem labelAlt_angles (P tl : List Char) (hne : P ≠ [])
    (hgt : ∀ c ∈ P, c ≠ '>') :
    labelAlt ('<' :: '<' :: (P ++ '>' :: '>' :: tl)) = some P := by
  have hcap : (P ++ '>' :: '>' :: tl).takeWhile (fun c => c ≠ '>') = P :=
    takeWhile_append_stop (fun c hc => by simpa using hgt c hc) (by decide) _
  have key : labelAlt ('<' :: '<' :: (P ++ '>' :: '>' :: tl)) =
      (let cap := (P ++ '>' :: '>' :: tl).takeWhile (fun c => c ≠ '>')
       if cap.isEmpty then labelQuoteBranch ('<' :: '<' :: (P ++ '>' :: '>' :: tl))
       else
         match (P ++ '>' :: '>' :: tl).drop cap.length with
         | '>' :: '>' :: _ => some cap
         | _ => labelQuoteBranch ('<' :: '<' :: (P ++ '>' :: '>' :: tl))) := rfl
  rw [key]
  dsimp only
  rw [hcap]
  rw [if_neg (by simpa [List.isEmpty_iff] using hne)]
  rw [List.drop_left]
  rfl

/-- The `\s*[:\-]?\s*` separator, instantiated at a `: ` separator followed by
a non-whitespace character, hands that position to the alternation. -/
theorem afterLabelSep_colon_space {α : Type} (alt : List Char → Option α)
    (c0 : Char) (body : List Char) (r : α) (hc0 : pyIsSpace c0 = false)
    (halt : alt (c0 :: body) = some r) :
    afterLabelSep alt (':' :: ' ' :: c0 :: body) = some r := by
  have hws : pyIsSpace ':' = false := by decide
  have h1 : (':' :: ' ' :: c0 :: body).takeWhile pyIsSpace = [] := by
    simp [List.takeWhile_cons, hws]
  have h2 : ((' ' :: c0 :: body).takeWhile pyIsSpace).length = 1 := by
    have hsp : pyIsSpace ' ' = true := by decide
    simp [List.takeWhile_cons, hsp, hc0]
  unfold afterLabelSep
  rw [h1, List.length_nil, firstDropDesc_zero]
  dsimp only
  have hcond : (decide ((':' : Char) = ':') || decide ((':' : Char) = '-')) = true := by
    decide
  rw [if_pos hcond, h2]
  have halt2 : alt (List.drop (0 + 1) (' ' :: c0 :: body)) = some r := halt
  rw [firstDropDesc_succ_some alt (' ' :: c0 :: body) 0 r halt2]

/-- The phrase-label matcher at its intended layout position captures `P`. -/
theorem matchLabelAt_layoutPos (P tl : List Char) (hP : tidy P = true)
    (hgt : ∀ c ∈ P, c ≠ '>') :
    matchLabelAt ("Phrase to learn: ".toList ++ '<' :: '<' ::
      (P ++ '>' :: '>' :: tl)) = some P := by
  have hsp : stripPrefixCI "phrase to learn".toList
      ("Phrase to learn: ".toList ++ '<' :: '<' :: (P ++ '>' :: '>' :: tl)) =
      some (':' :: ' ' :: '<' :: '<' :: (P ++ '>' :: '>' :: tl)) :=
    stripPrefixCI_of_eq "phrase to learn".toList "Phrase to learn".toList
      (by decide) (':' :: ' ' :: '<' :: '<' :: (P ++ '>' :: '>' :: tl))
  unfold matchLabelAt
  rw [hsp]
  exact afterLabelSep_colon_space labelAlt '<' ('<' :: (P ++ '>' :: '>' :: tl)) P
    (by decide) (labelAlt_angles P tl (tidy_ne_nil hP) hgt)

/-- The greedy line capture `(.+)` takes a newline-free line exactly. -/
theorem capLine_line (D tl : List Char) (hne : D ≠ [])
    (hDn : ∀ c ∈ D, c ≠ '\n') :
    capLine (D ++ '\n' :: tl) = some D := by
  have hcap : (D ++ '\n' :: tl).takeWhile (fun c => c ≠ '\n') = D :=
    takeWhile_append_stop (fun c hc => by simpa using hDn c hc) (by decide) _
  unfold capLine
  rw [hcap]
  rw [if_neg (by simpa [List.isEmpty_iff] using hne)]

/-- The definition matcher at its intended layout position captures `D`. -/
theorem matchDefAt_layoutPos (D tl : List Char) (hD : tidy D = true)
    (hDn : ∀ c ∈ D, c ≠ '\n') :
    matchDefAt ("Definition: ".toList ++ (D ++ '\n' :: tl)) = some D := by
  obtain ⟨d, D2, rfl⟩ : ∃ d D2, D = d :: D2 := by
    cases D with
    | nil => exact absurd rfl (tidy_ne_nil hD)
    | cons d D2 => exact ⟨d, D2, rfl⟩
  have hd : pyIsSpace d = false := by
    unfold tidy at hD
    rw [Bool.and_eq_true] at hD
    simpa [List.head?] using hD.1
  have hsp : stripPrefixCI "definition".toList
      ("Definition: ".toList ++ ((d :: D2) ++ '\n' :: tl)) =
      some (':' :: ' ' :: ((d :: D2) ++ '\n' :: tl)) :=
    stripPrefixCI_of_eq "definition".toList "Definition".toList
      (by decide) (':' :: ' ' :: ((d :: D2) ++ '\n' :: tl))
  unfold matchDefAt
  rw [hsp]
  exact afterLabelSep_colon_space capLine d (D2 ++ '\n' :: tl) (d :: D2) hd
    (capLine_line (d :: D2) tl (by simp) hDn)

/-- The definition-split break pattern never fires off a newline. -/
theorem isDefnBreakAt_false (s : List Char) (h : s.head? ≠ some '\n') :
    isDefnBreakAt s = false := by
  unfold isDefnBreakAt
  split
  · simp at h
  · rfl

/-- The definition split keeps a newline-free value whole. -/
theorem defnSplitHead_id (s : List Char) (h : ∀ c ∈ s, c ≠ '\n') :
    defnSplitHead s = s := by
  induction s with
  | nil => rfl
  | cons c rest ih =>
    unfold defnSplitHead
    rw [isDefnBreakAt_false _ (by simpa using h c (by simp))]
    simp only [Bool.false_eq_true, if_false]
    exact congrArg _ (ih (fun x hx => h x (by simp [hx])))

/-- The lazy examples capture runs to the end of a terminator-free block. -/
theorem exBlock_id (s : List Char) (h : exBlockSafe s = true) : exBlock s = s := by
  induction s using exBlock.induct with
  | case1 => rfl
  | case2 => exact absurd h (by decide)
  | case3 rest hne hhd =>
    cases rest with
    | nil => exact absurd rfl hne
    | cons d r2 =>
      have hd : d = '\n' := by simpa using hhd
      subst hd
      simp [exBlockSafe] at h
  | case4 rest hne hhd hl =>
    cases rest with
    | nil => exact absurd rfl hne
    | cons d r2 =>
      simp [exBlockSafe] at h
      exact absurd hl (by simp [h.1.1.2])
  | case5 rest hne hhd hl hu =>
    cases rest with
    | nil => exact absurd rfl hne
    | cons d r2 =>
      simp [exBlockSafe] at h
      exact absurd hu (by simp [h.1.2])
  | case6 rest hne hhd hl hu ih =>
    simp only [exBlock]
    rw [if_neg hne, if_neg hhd, if_neg hl, if_neg hu]
    simp only [exBlockSafe, Bool.and_eq_true] at h
    exact congrArg _ (ih h.2)
  | case7 c rest hc ih =>
    simp only [exBlock, hc]
    simp only [exBlockSafe, Bool.and_eq_true] at h
    exact congrArg _ (ih h.2)

/-- The examples matcher at its intended layout position captures the whole
terminator-free block after the label line. -/
theorem matchExamplesAt_layoutPos (c0 : Char) (body : List Char)
    (hc0 : pyIsSpace c0 = false) (hsafe : exBlockSafe (c0 :: body) = true) :
    matchExamplesAt ("Examples:".toList ++ '\n' :: (c0 :: body)) =
      some (c0 :: body) := by
  have hsp : stripPrefixCI "example".toList
      ("Examples:".toList ++ '\n' :: (c0 :: body)) =
      some ('s' :: ':' :: '\n' :: (c0 :: body)) :=
    stripPrefixCI_of_eq "example".toList "Example".toList
      (by decide) ('s' :: ':' :: '\n' :: (c0 :: body))
  unfold matchExamplesAt
  rw [hsp]
  show some (exBlock (List.dropWhile pyIsSpace ('\n' :: c0 :: body))) =
    some (c0 :: body)
  have hnl : pyIsSpace '\n' = true := by decide
  rw [List.dropWhile_cons]
  simp only [hnl, if_true]
  rw [List.dropWhile_cons]
  simp only [hc0, Bool.false_eq_true, if_false]
  exact congrArg some (exBlock_id _ hsafe)

/-- A newline-free prefix accumulates into the current `\n+`-split chunk. -/
theorem splitNlGo_append (xs : List Char) (h : ∀ c ∈ xs, c ≠ '\n') :
    ∀ (acc ys : List Char),
      splitNlGo acc (xs ++ '\n' :: ys) = (acc.reverse ++ xs) :: splitNlSkip ys := by
  induction xs with
  | nil =>
    intro acc ys
    show splitNlGo acc ('\n' :: ys) = (acc.reverse ++ []) :: splitNlSkip ys
    simp [splitNlGo]
  | cons a as ih =>
    intro acc ys
    have ha := h a (by simp)
    show splitNlGo acc (a :: (as ++ '\n' :: ys)) =
      (acc.reverse ++ a :: as) :: splitNlSkip ys
    simp only [splitNlGo]
    rw [if_neg ha, ih (fun c hc => h c (by simp [hc])) (a :: acc) ys]
    simp

/-- A newline-free string forms a single `\n+`-split chunk. -/
theorem splitNlGo_all (xs : List Char) (h : ∀ c ∈ xs, c ≠ '\n') :
    ∀ acc, splitNlGo acc xs = [acc.reverse ++ xs] := by
  induction xs with
  | nil => intro acc; simp [splitNlGo]
  | cons a as ih =>
    intro acc
    have ha := h a (by simp)
    simp only [splitNlGo]
    rw [if_neg ha, ih (fun c hc => h c (by simp [hc])) (a :: acc)]
    simp

/-- After a delimiter, splitting resumes on a non-newline character. -/
theorem splitNlSkip_cons (c : Char) (ys : List Char) (hc : c ≠ '\n') :
    splitNlSkip (c :: ys) = splitNlGo [c] ys := by
  simp only [splitNlSkip]
  rw [if_neg hc]

/-- Unpacking of the example well-formedness conjunction. -/
theorem cleanExample_parts {E : List Char} (h : cleanExample E = true) :
    tidy E = true ∧ 5 < E.length ∧ (∀ c ∈ E, ¬(c = '\n' ∨ c = '<')) ∧
    (∀ c, E.head? = some c → isBulletChar c = false) ∧ noAdjWs E = true := by
  unfold cleanExample at h
  simp only [Bool.and_eq_true] at h
  obtain ⟨⟨⟨⟨h1, h2⟩, h3⟩, h4⟩, h5⟩ := h
  refine ⟨h1, by simpa using h2, ?_, ?_, h5⟩
  · intro c hc
    have := List.all_eq_true.mp h3 c hc
    simpa using this
  · intro c hc
    rw [hc] at h4
    simpa using h4

/-- Every cleanup pass of the example pipeline fixes a well-formed line. -/
theorem clean_fix (canon r E : List Char) (h : cleanExample E = true) :
    pyStrip E = E ∧ bulletStrip E = E ∧ substAngles canon E = E ∧
    replace2 '<' '>' r E = E ∧ replace2 ' ' ' ' [' '] E = E ∧
    collapseWsRuns E = E := by
  obtain ⟨h1, _, h3, h4, h5⟩ := cleanExample_parts h
  have hne := tidy_ne_nil h1
  have hall : E.all (fun c => !(c = '<')) = true := by
    rw [List.all_eq_true]
    intro c hc
    have hx := h3 c hc
    simp at hx ⊢
    exact hx.2
  refine ⟨tidy_strip h1, ?_, substAnglesGo_id canon _ E hall,
    replace2_id_of_noPair '<' '>' r E (noPair_of_all_fst '<' '>' E hall),
    replace2_id_of_noPair ' ' ' ' [' '] E (noPair_space_of_noAdjWs E h5),
    collapseWsRunsGo_id _ E h5⟩
  obtain ⟨e, E2, rfl⟩ : ∃ e E2, E = e :: E2 := by
    cases E with
    | nil => exact absurd rfl hne
    | cons e E2 => exact ⟨e, E2, rfl⟩
  exact bulletStrip_id E2 (h4 e rfl)

/-- Stage (a) accepts two leading well-formed example lines and stops. -/
theorem exStageA_clean_two (canon E1 E2 : List Char) (rest : List (List Char))
    (h1 : cleanExample E1 = true) (h2 : cleanExample E2 = true) :
    exStageA canon [] (E1 :: E2 :: rest) = [E1, E2] := by
  obtain ⟨hs1, hb1, ha1, hr1, hw1, _⟩ := clean_fix canon [] E1 h1
  obtain ⟨hs2, hb2, ha2, hr2, hw2, _⟩ := clean_fix canon [] E2 h2
  have hne1 := tidy_ne_nil (cleanExample_parts h1).1
  have hne2 := tidy_ne_nil (cleanExample_parts h2).1
  have hlen1 := (cleanExample_parts h1).2.1
  have hlen2 := (cleanExample_parts h2).2.1
  simp only [exStageA, hs1, hb1, ha1, hr1, hw1, hs2, hb2, ha2, hr2, hw2]
  rw [if_neg hne1, if_pos hlen1]
  simp only [List.nil_append, List.length_cons, List.length_nil]
  rw [if_neg (by decide : ¬(0 + 1 ≥ 2))]
  rw [if_neg hne2, if_pos hlen2]
  simp

/-- The final cleanup keeps two well-formed example lines unchanged. -/
theorem exFinalClean_clean_two (E1 E2 : List Char)
    (h1 : cleanExample E1 = true) (h2 : cleanExample E2 = true) :
    exFinalClean [] [E1, E2] = [E1, E2] := by
  obtain ⟨hs1, _, _, hr1, _, hc1⟩ := clean_fix [] [] E1 h1
  obtain ⟨hs2, _, _, hr2, _, hc2⟩ := clean_fix [] [] E2 h2
  have hne1 := tidy_ne_nil (cleanExample_parts h1).1
  have hne2 := tidy_ne_nil (cleanExample_parts h2).1
  simp only [exFinalClean, hr1, hs1, hc1, hr2, hs2, hc2]
  rw [if_pos hne1]
  simp only [List.nil_append, List.length_cons, List.length_nil]
  rw [if_neg (by decide : ¬(0 + 1 ≥ 2))]
  rw [if_pos hne2]
  simp

/-- A string whose first line is tidy and whose final character is
non-whitespace is itself tidy. -/
theorem tidy_wrap (E1 X : List Char) (h1 : tidy E1 = true) (hXne : X ≠ [])
    (hX : ∀ c, X.getLast? = some c → pyIsSpace c = false) :
    tidy (E1 ++ '\n' :: X) = true := by
  have hne := tidy_ne_nil h1
  unfold tidy at h1 ⊢
  rw [Bool.and_eq_true] at h1 ⊢
  constructor
  · rw [List.head?_append_of_ne_nil _ hne]
    exact h1.1
  · rw [List.getLast?_append_cons]
    have hx : ('\n' :: X).getLast? = X.getLast? := by
      have hsplit : ('\n' :: X) = ['\n'] ++ X := rfl
      rw [hsplit, List.getLast?_append_of_ne_nil _ hXne]
    rw [hx]
    cases hXl : X.getLast? with
    | none =>
      rw [List.getLast?_eq_none_iff] at hXl
      exact absurd hXl hXne
    | some c => simpa using hX c hXl

/-- The head of a tidy string is not whitespace. -/
theorem tidy_head {s : List Char} (h : tidy s = true) :
    ∀ c, s.head? = some c → pyIsSpace c = false := by
  unfold tidy at h
  rw [Bool.and_eq_true] at h
  intro c hc
  have h1 := h.1
  rw [hc] at h1
  simpa using h1

/-- The last character of a tidy string is not whitespace. -/
theorem tidy_last {s : List Char} (h : tidy s = true) :
    ∀ c, s.getLast? = some c → pyIsSpace c = false := by
  unfold tidy at h
  rw [Bool.and_eq_true] at h
  intro c hc
  have h2 := h.2
  rw [hc] at h2
  simpa using h2

/-- `re.split(r'\n+', ...)` of a standardized examples block starts with the
two example lines. -/
theorem splitNl_block (E1 E2 : List Char) (notes : Option (List Char))
    (h1 : ∀ c ∈ E1, c ≠ '\n') (h2 : ∀ c ∈ E2, c ≠ '\n') (hne2 : E2 ≠ [])
    (hnotes : ∀ t, notes = some t → ∀ c ∈ t, c ≠ '\n') :
    ∃ tl, splitNl (E1 ++ '\n' :: (E2 ++ notesTail notes)) = E1 :: E2 :: tl := by
  unfold splitNl
  rw [splitNlGo_append E1 h1]
  simp only [List.reverse_nil, List.nil_append]
  obtain ⟨e2, E2r, rfl⟩ : ∃ e t, E2 = e :: t := by
    cases E2 with
    | nil => exact absurd rfl hne2
    | cons e t => exact ⟨e, t, rfl⟩
  cases notes with
  | none =>
    refine ⟨[], ?_⟩
    show E1 :: splitNlSkip ((e2 :: E2r) ++ []) = E1 :: (e2 :: E2r) :: []
    rw [List.append_nil, splitNlSkip_cons e2 E2r (h2 e2 (by simp)),
      splitNlGo_all E2r (fun c hc => h2 c (by simp [hc])) [e2]]
    simp
  | some t =>
    refine ⟨["Notes: ".toList ++ t], ?_⟩
    show E1 :: splitNlSkip ((e2 :: E2r) ++ '\n' :: ("Notes: ".toList ++ t)) =
      E1 :: (e2 :: E2r) :: ["Notes: ".toList ++ t]
    rw [List.cons_append, splitNlSkip_cons e2 _ (h2 e2 (by simp)),
      splitNlGo_append E2r (fun c hc => h2 c (by simp [hc]))]
    have hNt : ∀ c ∈ ("Notes: ".toList ++ t), c ≠ '\n' := by
      intro c hc
      rcases List.mem_append.mp hc with hc2 | hc2
      · revert hc2
        have : ∀ c ∈ "Notes: ".toList, c ≠ '\n' := by decide
        exact this c
      · exact hnotes t rfl c hc2
    obtain ⟨n0, nrest, hncons⟩ : ∃ a b, "Notes: ".toList ++ t = a :: b :=
      ⟨'N', "otes: ".toList ++ t, rfl⟩
    rw [hncons, splitNlSkip_cons n0 nrest (by
      apply hNt
      rw [hncons]
      simp)]
    rw [splitNlGo_all nrest (by
      intro c hc
      apply hNt
      rw [hncons]
      simp [hc]) [n0]]
    simp [← hncons]

/-! ## Claim theorems -/

/-- C8: when the supplied phrase is empty after trimming and no canonical
phrase can be extracted from the supplied lesson fields, `add_phrase` returns
the no-valid-phrase status string, leaves the store unmodified, and does not
rewrite the backing file. -/
theorem c8_add_invalid_input (mem : List Record) (phrase meaning : List Char)
    (sc cc lt lh : Option (List Char)) (now : List Char)
    (hcanon : extractCanonicalFromLessonMB lt lh = none)
    (hphrase : pyStrip phrase = []) :
    addPhrase mem phrase meaning sc cc lt lh now =
      ("No valid phrase provided to add.".toList, mem, false) := by
  have hres : resolvedPhrase phrase lt lh = [] := by
    unfold resolvedPhrase
    rw [hcanon]
    exact hphrase
  unfold addPhrase
  simp [hres]

/-- C8 witness: a concrete whitespace-only phrase with no lesson fields. -/
theorem c8_add_invalid_input_witness :
    addPhrase [sampleRec1] "  ".toList "mm".toList none none none none "T".toList =
      ("No valid phrase provided to add.".toList, [sampleRec1], false) :=
  c8_add_invalid_input [sampleRec1] "  ".toList "mm".toList none none none none
    "T".toList (by decide) (by decide)

/-- C2: for every store satisfying the case-insensitive uniqueness invariant,
any `add_phrase` call preserves the invariant: the call either updates the
unique matching record (leaving all phrases unchanged) or appends a record
whose normalised phrase matches no existing record. -/
theorem c2_add_preserves_uniqueness (mem : List Record) (phrase meaning : List Char)
    (sc cc lt lh : Option (List Char)) (now : List Char) (hinv : storeInv mem) :
    storeInv (addPhrase mem phrase meaning sc cc lt lh now).2.1 := by
  unfold addPhrase
  by_cases hf : resolvedPhrase phrase lt lh = []
  · simp [hf, hinv]
  · simp only [hf, if_false]
    cases hu : updateFirstMatch (normP (resolvedPhrase phrase lt lh))
        (mergeRecord meaning cc lt lh now) mem with
    | some mem2 =>
      simp only [hu]
      exact storeInv_of_map_eq
        (updateFirstMatch_phrases (normP (resolvedPhrase phrase lt lh))
          (mergeRecord meaning cc lt lh now) (fun r => rfl) mem mem2 hu) hinv
    | none =>
      simp only [hu]
      have hnone := updateFirstMatch_none _ _ mem hu
      unfold storeInv
      rw [List.pairwise_append]
      refine ⟨hinv, by simp, ?_⟩
      intro a ha b hb
      simp at hb
      subst hb
      simpa using hnone a ha

/-- C2 witness: the invariant holds before and after a concrete add. -/
theorem c2_add_preserves_uniqueness_witness :
    storeInv [sampleRec1, sampleRec2] ∧
      storeInv ((addPhrase [sampleRec1, sampleRec2] "Spill The Beans".toList
        "updated meaning".toList none none none none "T2".toList).2.1) :=
  ⟨by decide,
   c2_add_preserves_uniqueness [sampleRec1, sampleRec2] "Spill The Beans".toList
     "updated meaning".toList none none none none "T2".toList (by decide)⟩

/-- C1 counterexample: re-adding an existing phrase with a non-empty
`source_context` does not overwrite the stored `source_context` (here it
stays absent), refuting the claim that every non-empty supplied field among
`meaning, source_context, corrected_context, lesson_text, lesson_html`
overwrites the stored field on update. -/
theorem c1_counterexample :
    ((addPhrase [sampleRec1] "spill the beans".toList "m1".toList
        (some "NEW".toList) none none none "T1".toList).2.1.map
          Record.source_context) = [none] ∧
      (none : Option (List Char)) ≠ some "NEW".toList := by
  constructor
  · decide
  · decide

/-- C1 (amended): when the resolved canonical phrase matches an existing
record case-insensitively, `add_phrase` updates the first matching record in
place: non-empty supplied `meaning`, `corrected_context`, `lesson_text`,
`lesson_html` overwrite the stored fields, `source_context` is left
unchanged, `date_added` is refreshed to the fresh timestamp, no record is
inserted, and the `store.stats()` summary is unchanged. -/
theorem c1_add_merges_on_match (pre post : List Record) (r : Record)
    (phrase meaning : List Char) (sc cc lt lh : Option (List Char)) (now : List Char)
    (hne : resolvedPhrase phrase lt lh ≠ [])
    (hmatch : normP r.phrase = normP (resolvedPhrase phrase lt lh))
    (hpre : ∀ x ∈ pre, normP x.phrase ≠ normP (resolvedPhrase phrase lt lh)) :
    addPhrase (pre ++ r :: post) phrase meaning sc cc lt lh now =
      (statusUpdated (resolvedPhrase phrase lt lh),
       pre ++ { r with
           meaning := if meaning ≠ [] then meaning else r.meaning
           corrected_context := updIf cc r.corrected_context
           lesson_text := updIf lt r.lesson_text
           lesson_html := updIf lh r.lesson_html
           date_added := now } :: post,
       true) ∧
      getMemoryStats (addPhrase (pre ++ r :: post) phrase meaning sc cc lt lh now).2.1 =
        getMemoryStats (pre ++ r :: post) := by
  have hsplit := updateFirstMatch_split (normP (resolvedPhrase phrase lt lh))
    (mergeRecord meaning cc lt lh now) pre r post hpre hmatch
  have hmain : addPhrase (pre ++ r :: post) phrase meaning sc cc lt lh now =
      (statusUpdated (resolvedPhrase phrase lt lh),
       pre ++ mergeRecord meaning cc lt lh now r :: post, true) := by
    unfold addPhrase
    simp only [hne, if_false, hsplit]
  refine ⟨hmain, ?_⟩
  rw [hmain]
  simp [getMemoryStats]

/-- The examples list of `_extract_examples` never exceeds two entries. -/
theorem extractExamplesRA_le_two (lt canon : List Char) (item : Record) :
    (extractExamplesRA lt canon item).length ≤ 2 := by
  unfold extractExamplesRA
  simp [List.length_take]

/-- C4: the Lesson Parser returns at most 2 example strings, and exactly 2
whenever the resolved canonical phrase is non-empty; fewer than 2 can occur
only when the canonical phrase is empty. -/
theorem c4_examples_count (item : Record) :
    (parseLesson item).examples.length ≤ 2 ∧
      ((match extractCanonicalPhraseRA item with
        | some c => c
        | none => item.phrase) ≠ [] →
        (parseLesson item).examples.length = 2) := by
  have hle := extractExamplesRA_le_two (item.lesson_text.getD [])
    (match extractCanonicalPhraseRA item with
     | some c => c
     | none => item.phrase) item
  unfold parseLesson
  dsimp only
  constructor
  · split_ifs <;> simp_all [List.length_append, List.length_map]
  · intro hc
    split_ifs <;> simp_all [List.length_append, List.length_map] <;>
      first
      | omega
      | (have hpos := List.length_pos_of_ne_nil (by assumption :
            extractExamplesRA (item.lesson_text.getD [])
              (match extractCanonicalPhraseRA item with
               | some c => c
               | none => item.phrase) item ≠ [])
         omega)

/-- C4 witness: a record with no usable lesson content but a non-empty phrase
gets exactly two synthetic examples. -/
theorem c4_examples_count_witness :
    (parseLesson sampleRec1).examples.length ≤ 2 ∧
      (parseLesson sampleRec1).examples.length = 2 := by
  have h := c4_examples_count sampleRec1
  exact ⟨h.1, h.2 (by decide)⟩

/-- `pyIndex` of a member points back at an equal element. -/
theorem pyIndex_get? {a : List Char} : ∀ {l : List (List Char)}, a ∈ l →
    l.get? (pyIndex a l) = some a := by
  intro l h
  induction l with
  | nil => simp at h
  | cons b bs ih =>
    by_cases hb : b = a
    · subst hb
      simp [pyIndex]
    · rcases List.mem_cons.mp h with rfl | h2
      · exact absurd rfl hb
      · have hx := ih h2
        simp only [List.get?_eq_getElem?] at hx
        simp [pyIndex, hb, hx]

/-- `countOcc` distributes over append. -/
theorem countOcc_append (a : List Char) (l1 l2 : List (List Char)) :
    countOcc a (l1 ++ l2) = countOcc a l1 + countOcc a l2 := by
  induction l1 with
  | nil => simp [countOcc]
  | cons b bs ih => simp [countOcc, ih]; omega

/-- `countOcc` is invariant under permutation. -/
theorem countOcc_perm {l1 l2 : List (List Char)} (h : l1.Perm l2) (a : List Char) :
    countOcc a l1 = countOcc a l2 := by
  induction h with
  | nil => rfl
  | cons x _ ih => simp [countOcc, ih]
  | swap x y l => simp [countOcc]; omega
  | trans _ _ ih1 ih2 => exact ih1.trans ih2

/-- `countOcc` vanishes when no element equals the key. -/
theorem countOcc_eq_zero {a : List Char} {l : List (List Char)}
    (h : ∀ b ∈ l, b ≠ a) : countOcc a l = 0 := by
  induction l with
  | nil => rfl
  | cons b bs ih =>
    have hb := h b (by simp)
    simp [countOcc, hb, ih (fun x hx => h x (by simp [hx]))]

/-- C10: for every store holding at least one record, `generate_quiz` appends
the correct record's meaning to the choices list before computing
`correct_index`, so `correct_index` is never `-1` and always indexes the
correct record's meaning text in `choices` — even when that meaning is empty
or duplicates a distractor's; the `-1` branch is unreachable. -/
theorem c10_quiz_index_total (e0 : Record) (rest : List Record)
    (numChoices pick : Nat) (shufD : List Record → List Record)
    (shufC : List (List Char) → List (List Char))
    (hC : ∀ l, (shufC l).Perm l) :
    ∃ q : Quiz, generateQuiz (e0 :: rest) numChoices pick shufD shufC =
        QuizResult.ok q ∧
      q.correct_index ≠ -1 ∧ 0 ≤ q.correct_index ∧
      q.choices.get? q.correct_index.toNat =
        some ((e0 :: rest).getD pick e0).meaning := by
  refine ⟨_, rfl, ?_⟩
  dsimp only [generateQuiz]
  set cm := ((e0 :: rest).getD pick e0).meaning with hcm
  set pre := (List.map
      (fun d => if d.meaning ≠ [] then d.meaning else [])
      ((shufD ((e0 :: rest).filter _)).take (numChoices - 1))) ++ [cm] with hpre
  have hmem : cm ∈ shufC pre := (hC pre).mem_iff.mpr (by simp [hpre])
  simp only [hmem, if_pos]
  refine ⟨by omega, by omega, ?_⟩
  simpa using pyIndex_get? hmem

/-- C10 witness: a single-record store whose meaning is the empty string. -/
theorem c10_quiz_index_total_witness :
    ∃ q : Quiz,
      generateQuiz [{ phrase := "a".toList, meaning := [] }] 4 0 id id =
          QuizResult.ok q ∧
        q.correct_index ≠ -1 ∧ 0 ≤ q.correct_index ∧
        q.choices.get? q.correct_index.toNat = some [] :=
  c10_quiz_index_total { phrase := "a".toList, meaning := [] } [] 4 0 id id
    (fun l => List.Perm.refl l)

/-- C5 counterexample: with one stored record and `num_choices = 0` the
returned choices list has length 1, not `min 0 1 = 0`, refuting the claimed
`min(n, records)` length for every `n`. -/
theorem c5_counterexample :
    generateQuiz [sampleRec1] 0 0 id id =
      QuizResult.ok
        { question := "What is the best meaning of the phrase: ".toList ++ [apos] ++
            "spill the beans".toList ++ [apos] ++ "?".toList
          phrase := "spill the beans".toList
          choices := ["to reveal a secret".toList]
          correct_index := 0 } ∧
      (1 : Nat) ≠ min 0 (List.length [sampleRec1]) :=
  ⟨by decide, by decide⟩

/-- C5 (amended): with zero records `generate_quiz` returns the error
payload; otherwise, for every store satisfying the case-insensitive
uniqueness invariant whose records all carry a non-empty stored phrase, and
for every `num_choices ≥ 1`, the question's choices list has length
`min(num_choices, records)`, `correct_index` points at the correct record's
meaning, and when no other record shares that exact meaning text the correct
meaning occurs exactly once. -/
theorem c5_quiz_shape (entries : List Record) (n pick : Nat)
    (shufD : List Record → List Record) (shufC : List (List Char) → List (List Char))
    (hD : ∀ l, (shufD l).Perm l) (hC : ∀ l, (shufC l).Perm l)
    (hn : 1 ≤ n) (hinv : storeInv entries) (hph : ∀ e ∈ entries, e.phrase ≠ []) :
    (entries = [] → generateQuiz entries n pick shufD shufC =
        QuizResult.err "No phrases available for quiz.".toList) ∧
      ∀ hpick : pick < entries.length,
        ∃ q : Quiz, generateQuiz entries n pick shufD shufC = QuizResult.ok q ∧
          q.choices.length = min n entries.length ∧
          q.choices.get? q.correct_index.toNat =
            some (entries.get ⟨pick, hpick⟩).meaning ∧
          ((∀ e ∈ entries, e ≠ entries.get ⟨pick, hpick⟩ →
              e.meaning ≠ (entries.get ⟨pick, hpick⟩).meaning) →
            countOcc (entries.get ⟨pick, hpick⟩).meaning q.choices = 1) := by
  cases entries with
  | nil =>
    refine ⟨fun _ => rfl, ?_⟩
    intro hpick
    simp at hpick
  | cons e0 rest =>
    refine ⟨fun h => by simp at h, ?_⟩
    intro hpick
    have hget : (e0 :: rest).getD pick e0 = (e0 :: rest).get ⟨pick, hpick⟩ := by
      rw [List.getD_eq_getElem _ _ hpick, List.get_eq_getElem]
    set correct := (e0 :: rest).getD pick e0 with hcor
    have hcmem : correct ∈ (e0 :: rest) := by
      rw [hcor, List.getD_eq_getElem _ _ hpick]
      exact List.getElem_mem hpick
    have hsplit : (e0 :: rest) =
        (e0 :: rest).take pick ++ correct :: (e0 :: rest).drop (pick + 1) := by
      conv_lhs => rw [← List.take_append_drop pick (e0 :: rest)]
      congr 1
      rw [hcor, List.getD_eq_getElem _ _ hpick]
      exact (List.getElem_cons_drop _ _ hpick).symm
    have hphrase_ne : correct.phrase ≠ [] := hph correct hcmem
    have hRpair : ∀ x ∈ (e0 :: rest).take pick ++ (e0 :: rest).drop (pick + 1),
        normP x.phrase ≠ normP correct.phrase := by
      have hinv2 : ((e0 :: rest).take pick ++
          correct :: (e0 :: rest).drop (pick + 1)).Pairwise
            (fun a b => normP a.phrase ≠ normP b.phrase) := by
        rw [← hsplit]
        exact hinv
      rw [List.pairwise_append] at hinv2
      obtain ⟨h1, h2, h3⟩ := hinv2
      rw [List.pairwise_cons] at h2
      intro x hx
      rcases List.mem_append.mp hx with hx | hx
      · exact h3 x hx correct (by simp)
      · exact (h2.1 x hx).symm
    have hRlow : ∀ x ∈ (e0 :: rest).take pick ++ (e0 :: rest).drop (pick + 1),
        lowerStr x.phrase ≠ lowerStr correct.phrase := by
      intro x hx heq
      exact hRpair x hx (by unfold normP; rw [heq])
    have hfilter : (e0 :: rest).filter
        (fun e => lowerStr e.phrase ≠ lowerStr correct.phrase) =
        (e0 :: rest).take pick ++ (e0 :: rest).drop (pick + 1) := by
      conv_lhs => rw [hsplit]
      rw [List.filter_append, List.filter_cons]
      rw [if_neg (by simp)]
      congr 1
      · exact List.filter_eq_self.mpr (fun a ha => by
          simpa using hRlow a (List.mem_append.mpr (Or.inl ha)))
      · exact List.filter_eq_self.mpr (fun a ha => by
          simpa using hRlow a (List.mem_append.mpr (Or.inr ha)))
    have hpoolsub : ∀ x ∈ (e0 :: rest).take pick ++ (e0 :: rest).drop (pick + 1),
        x ∈ (e0 :: rest) := by
      intro x hx
      rw [hsplit]
      rcases List.mem_append.mp hx with hx | hx
      · exact List.mem_append.mpr (Or.inl hx)
      · exact List.mem_append.mpr (Or.inr (List.mem_cons_of_mem _ hx))
    have hpoollen : ((e0 :: rest).take pick ++ (e0 :: rest).drop (pick + 1)).length =
        (e0 :: rest).length - 1 := by
      rw [List.length_append, List.length_take, List.length_drop]
      omega
    dsimp only [generateQuiz]
    rw [← hcor]
    simp only [ne_eq, hphrase_ne, not_false_eq_true, if_pos, hfilter]
    set pool := (e0 :: rest).take pick ++ (e0 :: rest).drop (pick + 1) with hpool
    set distractors := (shufD pool).take (n - 1) with hdistr
    set choices0 := distractors.map
      (fun d => if d.meaning ≠ [] then d.meaning else []) with hch0
    set choices := shufC (choices0 ++ [correct.meaning]) with hch
    have hmemcm : correct.meaning ∈ choices := (hC _).mem_iff.mpr (by simp)
    have hchlen : choices.length = choices0.length + 1 := by
      rw [hch, (hC _).length_eq, List.length_append, List.length_singleton]
    have hch0len : choices0.length = min (n - 1) (pool.length) := by
      rw [hch0, List.length_map, hdistr, List.length_take, (hD pool).length_eq]
    refine ⟨_, rfl, ?_, ?_, ?_⟩
    · show choices.length = min n (e0 :: rest).length
      rw [hchlen, hch0len, hpoollen]
      have hlen1 : 1 ≤ (e0 :: rest).length := by simp
      omega
    · show choices.get? (if correct.meaning ∈ choices then
          ((pyIndex correct.meaning choices : Nat) : Int) else -1).toNat =
        some ((e0 :: rest).get ⟨pick, hpick⟩).meaning
      rw [if_pos hmemcm, ← hget]
      simpa using pyIndex_get? hmemcm
    · intro huniq
      show countOcc ((e0 :: rest).get ⟨pick, hpick⟩).meaning choices = 1
      rw [← hget]
      rw [hch, countOcc_perm (hC (choices0 ++ [correct.meaning])) correct.meaning,
        countOcc_append]
      have hc1 : countOcc correct.meaning [correct.meaning] = 1 := by simp [countOcc]
      have hc0 : countOcc correct.meaning choices0 = 0 := by
        apply countOcc_eq_zero
        intro b hmem hbe
        rw [hch0] at hmem
        obtain ⟨d, hd, hdm⟩ := List.mem_map.mp hmem
        have hdm2 : d.meaning = correct.meaning := by
          by_cases hdm0 : d.meaning = []
          · rw [← hbe, ← hdm]
            simp [hdm0]
          · rw [← hbe, ← hdm]
            simp [hdm0]
        have hdpool : d ∈ pool := (hD pool).mem_iff.mp (List.take_subset _ _ hd)
        have hdne : d ≠ correct := by
          intro hcontra
          exact hRpair d hdpool (by rw [hcontra])
        exact huniq d (hpoolsub d hdpool) (by rw [hget] at hdne; exact hdne)
          (by rw [← hget]; exact hdm2)
      rw [hc0, hc1]

/-- C5 witness: a concrete two-record store with `num_choices = 2`. -/
theorem c5_quiz_shape_witness :
    ∃ q : Quiz, generateQuiz [sampleRec1, sampleRec2] 2 0 id id = QuizResult.ok q ∧
      q.choices.length = min 2 (List.length [sampleRec1, sampleRec2]) ∧
      q.choices.get? q.correct_index.toNat =
        some (([sampleRec1, sampleRec2] : List Record).get ⟨0, by decide⟩).meaning ∧
      ((∀ e ∈ [sampleRec1, sampleRec2],
          e ≠ ([sampleRec1, sampleRec2] : List Record).get ⟨0, by decide⟩ →
          e.meaning ≠ (([sampleRec1, sampleRec2] : List Record).get ⟨0, by decide⟩).meaning) →
        countOcc (([sampleRec1, sampleRec2] : List Record).get ⟨0, by decide⟩).meaning q.choices = 1) :=
  (c5_quiz_shape [sampleRec1, sampleRec2] 2 0 id id
    (fun l => List.Perm.refl l) (fun l => List.Perm.refl l)
    (by decide) (by decide) (by decide)).2 (by decide)

/-- The record produced by one normalizer pass, phrased as the claim
describes it (overwrite conditions on `phrase`/`meaning`, drop-or-clean on
`source_context`, clean on `corrected_context`). -/
theorem normalizeEntry_fst (e : Record) :
    (normalizeEntry e).1 =
      (let canon := extractCanonicalNM (e.lesson_text.getD []) (e.lesson_html.getD [])
        e.phrase
       let m0 := extractMeaningNM (e.lesson_text.getD []) (e.lesson_html.getD [])
        e.meaning
       { e with
         phrase := if canon ≠ [] ∧ canon ≠ e.phrase then canon else e.phrase
         meaning := if m0 ≠ [] ∧ m0 ≠ e.meaning then m0 else e.meaning
         source_context :=
           match e.source_context with
           | some v =>
             if v ≠ [] then
               if containsSub "**".toList v || containsSub "Corrected".toList v then none
               else some (cleanContext v)
             else some v
           | none => none
         corrected_context :=
           e.corrected_context.map (fun v => if v ≠ [] then cleanContext v else v) }) := by
  unfold normalizeEntry
  rcases e.source_context with _ | v <;> rcases e.corrected_context with _ | w <;>
    dsimp only <;> split_ifs <;> simp_all

/-- The normalizer's changed flag for one record, phrased as the claim
describes it: set exactly by a phrase overwrite, a meaning overwrite, or a
source-context drop — never by context cleaning alone. -/
theorem normalizeEntry_snd (e : Record) :
    (normalizeEntry e).2 = true ↔
      (let canon := extractCanonicalNM (e.lesson_text.getD []) (e.lesson_html.getD [])
        e.phrase
       canon ≠ [] ∧ canon ≠ e.phrase) ∨
      (let m0 := extractMeaningNM (e.lesson_text.getD []) (e.lesson_html.getD [])
        e.meaning
       m0 ≠ [] ∧ m0 ≠ e.meaning) ∨
      (∃ v, e.source_context = some v ∧ v ≠ [] ∧
        (containsSub "**".toList v = true ∨ containsSub "Corrected".toList v = true)) := by
  unfold normalizeEntry
  rcases e.source_context with _ | v <;>
    dsimp only <;> split_ifs <;> simp_all <;>
    exact ⟨by assumption, by assumption⟩

/-- C9 counterexample: a record whose only change is context cleaning is
modified in memory, yet the end-of-pass write flag stays false, so the
backing file is not rewritten although a record changed — refuting the
claimed if-and-only-if. -/
theorem c9_counterexample :
    normalizeMem
        [{ phrase := "x".toList
           meaning := "m".toList
           corrected_context := some "1. foo".toList }] =
      ([{ phrase := "x".toList
          meaning := "m".toList
          corrected_context := some "foo".toList }], false) ∧
      ({ phrase := "x".toList
         meaning := "m".toList
         corrected_context := some "foo".toList } : Record) ≠
        { phrase := "x".toList
          meaning := "m".toList
          corrected_context := some "1. foo".toList } :=
  ⟨by decide, by decide⟩

/-- C9 (amended): each stored record is transformed exactly as the claim
says (phrase/meaning overwritten only when the re-resolved value is
non-empty and differs, source_context dropped when it contains `**` or
`Corrected` and cleaned otherwise, corrected_context cleaned), but the
backing file is rewritten if and only if some record had a phrase or
meaning overwrite or a source-context drop — cleanup of the context fields
alone does not trigger a rewrite. -/
theorem c9_normalize_behaviour (mem : List Record) :
    (normalizeMem mem).1 = mem.map (fun e =>
      let canon := extractCanonicalNM (e.lesson_text.getD []) (e.lesson_html.getD [])
        e.phrase
      let m0 := extractMeaningNM (e.lesson_text.getD []) (e.lesson_html.getD [])
        e.meaning
      { e with
        phrase := if canon ≠ [] ∧ canon ≠ e.phrase then canon else e.phrase
        meaning := if m0 ≠ [] ∧ m0 ≠ e.meaning then m0 else e.meaning
        source_context :=
          match e.source_context with
          | some v =>
            if v ≠ [] then
              if containsSub "**".toList v || containsSub "Corrected".toList v then none
              else some (cleanContext v)
            else some v
          | none => none
        corrected_context :=
          e.corrected_context.map (fun v => if v ≠ [] then cleanContext v else v) }) ∧
      ((normalizeMem mem).2 = true ↔ ∃ e ∈ mem,
        (extractCanonicalNM (e.lesson_text.getD []) (e.lesson_html.getD [])
            e.phrase ≠ [] ∧
          extractCanonicalNM (e.lesson_text.getD []) (e.lesson_html.getD [])
            e.phrase ≠ e.phrase) ∨
        (extractMeaningNM (e.lesson_text.getD []) (e.lesson_html.getD [])
            e.meaning ≠ [] ∧
          extractMeaningNM (e.lesson_text.getD []) (e.lesson_html.getD [])
            e.meaning ≠ e.meaning) ∨
        (∃ v, e.source_context = some v ∧ v ≠ [] ∧
          (containsSub "**".toList v = true ∨ containsSub "Corrected".toList v = true))) := by
  constructor
  · unfold normalizeMem
    dsimp only
    rw [List.map_map]
    exact List.map_congr_left (fun e _ => normalizeEntry_fst e)
  · unfold normalizeMem
    dsimp only
    rw [List.any_eq_true]
    constructor
    · rintro ⟨p, hp, hflag⟩
      obtain ⟨e, he, rfl⟩ := List.mem_map.mp hp
      exact ⟨e, he, (normalizeEntry_snd e).mp hflag⟩
    · rintro ⟨e, he, hcond⟩
      exact ⟨normalizeEntry e, List.mem_map.mpr ⟨e, he, rfl⟩,
        (normalizeEntry_snd e).mpr hcond⟩

/-- C1 witness: a concrete merging add against a one-record store. -/
theorem c1_add_merges_on_match_witness :
    addPhrase [sampleRec1] "Spill the Beans ".toList "m1".toList
        (some "NEW".toList) (some "ctx".toList) none none "T1".toList =
      (statusUpdated "Spill the Beans".toList,
       [{ sampleRec1 with
           meaning := "m1".toList
           corrected_context := some "ctx".toList
           date_added := "T1".toList }],
       true) := by
  have h := c1_add_merges_on_match [] [] sampleRec1 "Spill the Beans ".toList
    "m1".toList (some "NEW".toList) (some "ctx".toList) none none "T1".toList
    (by decide) (by decide) (by simp)
  exact h.1.trans (by decide)

/-- C7: at a corrector output whose labeled rules and definition-adjacent
rule all fail and whose suggestion block holds two quoted spans, the code
extracts the FIRST quoted span, while the spec — and the code's own comment
"Look for the last quoted phrase" — say the LAST quoted span. -/
theorem c7_quoted_span_is_first :
    extractPhraseForTeaching
        "ok\n---\nYou could say \"hit the sack\" or \"crash out\" tonight.".toList =
      some ("hit the sack".toList, "ok".toList) ∧
      "hit the sack".toList ≠ "crash out".toList :=
  ⟨by decide, by decide⟩

/-- `_canonical_from_labels` equals the claim-style label rule. -/
theorem canonicalFromLabels_eq_rule (text : List Char) :
    canonicalFromLabels text = ruleLabel text := by
  unfold canonicalFromLabels ruleLabel stripOrNone
  by_cases h : text = []
  · subst h
    rfl
  · simp only [h, if_false]
    cases hs : searchA matchLabelAt text <;> simp [hs]

/-- C6 counterexample: the store's internal extractor applies the
tag-stripped label search before the strong-span rule — at this input the
claimed order (strong span first) would produce `bar`, but the extractor
returns `foo bar` from the stripped label line. -/
theorem c6_counterexample :
    extractCanonicalFromLessonMB none
        (some "<p>Phrase to learn: foo</p> <strong>bar</strong>".toList) =
      some "foo bar".toList ∧
      ruleStrong "<p>Phrase to learn: foo</p> <strong>bar</strong>".toList =
        some "bar".toList ∧
      "foo bar".toList ≠ "bar".toList :=
  ⟨by decide, by decide, by decide⟩

/-- C6 (amended): the Review Agent's resolver tries exactly the claimed rule
order — label in plain text, emphasis span in plain text, strong span in the
HTML, label on the tag-stripped HTML, stored fallback phrase — treating
every empty-after-trim match as no match; the store's internal extractor
instead short-circuits the cascade on any labelled match (even one that
trims to empty) and runs the tag-stripped label search before the
strong-span rule. -/
theorem c6_cascade_order (item : Record) (lt lh : Option (List Char)) :
    extractCanonicalPhraseRA item = claimCascade item ∧
      extractCanonicalFromLessonMB lt lh = mbCascade lt lh := by
  constructor
  · unfold extractCanonicalPhraseRA claimCascade
    dsimp only
    rw [canonicalFromLabels_eq_rule, canonicalFromLabels_eq_rule]
    cases h1 : ruleLabel (item.lesson_text.getD []) with
    | some r => simp [firstSome, h1]
    | none =>
      have h2eq : (searchA matchAnglesAt (item.lesson_text.getD [])).bind
          (fun c => if pyStrip c = [] then none else some (pyStrip c)) =
          ruleAngles (item.lesson_text.getD []) := rfl
      rw [h2eq]
      cases h2 : ruleAngles (item.lesson_text.getD []) with
      | some r => simp [firstSome, h1, h2]
      | none =>
        have h3eq : (searchA matchStrongAt (item.lesson_html.getD [])).bind
            (fun c => if pyStrip c = [] then none else some (pyStrip c)) =
            ruleStrong (item.lesson_html.getD []) := rfl
        rw [h3eq]
        cases h3 : ruleStrong (item.lesson_html.getD []) with
        | some r => simp [firstSome, h1, h2, h3]
        | none =>
          cases h4 : ruleLabel (stripTags (item.lesson_html.getD [])) with
          | some r => simp [firstSome, h1, h2, h3, h4]
          | none =>
            by_cases hp : item.phrase = [] <;>
              simp [firstSome, h1, h2, h3, h4, hp]
  · unfold extractCanonicalFromLessonMB mbCascade
    dsimp only
    split_ifs
    all_goals
      first
      | rfl
      | (cases hs : searchA matchLabelAt (lt.getD []) <;>
         cases ha : searchA matchAnglesAt (lt.getD []) <;>
         cases hs2 : searchA matchLabelAt (stripTags (lh.getD [])) <;>
         cases hst : searchA matchStrongAt (lh.getD []) <;>
         simp [stripOrNone, ruleAngles, ruleStrong, ite_not, hs, ha, hs2, hst] <;>
         try (split_ifs <;> rfl))

/-- C6 witness: the claimed cascade agrees with the resolver on a concrete
record resolved through the strong-span rule. -/
theorem c6_cascade_order_witness :
    extractCanonicalPhraseRA
        { phrase := "p".toList
          lesson_html := some "x <strong>go for it</strong>".toList } =
      claimCascade
        { phrase := "p".toList
          lesson_html := some "x <strong>go for it</strong>".toList } ∧
      extractCanonicalFromLessonMB none (some "x <strong>go for it</strong>".toList) =
        mbCascade none (some "x <strong>go for it</strong>".toList) :=
  c6_cascade_order
    { phrase := "p".toList
      lesson_html := some "x <strong>go for it</strong>".toList }
    none (some "x <strong>go for it</strong>".toList)

/-- C3 counterexample: a lesson in the standardized §6 layout whose free-text
improvement note mentions a `Definition:` label.  The definition resolver
searches for the leftmost `Definition` match in the whole text, so it
captures the text from the note line instead of the written definition `D`,
and the round trip fails as stated. -/
theorem c3_counterexample :
    (parseLesson c3CounterItem).definition = "wording".toList ∧
      (parseLesson c3CounterItem).definition ≠
        "to persevere and not give up".toList := by
  constructor
  · decide
  · decide

/-- C3 (amended): for every lesson text in the standardized §6 layout whose
fields are well formed — the phrase is trimmed, non-empty and free of
span-closing markers, the definition is a trimmed single line, each example
line is longer than 5 characters and survives the extraction cleanup
unchanged, the examples block contains no terminator of the examples
pattern, and none of the three label regexes matches anywhere before its
intended layout position — the lesson parser recovers exactly the phrase,
the definition and the two example lines that were written into the layout. -/
theorem c3_roundtrip (item : Record) (note P D E1 E2 : List Char)
    (notes : Option (List Char))
    (hlt : item.lesson_text = some (layout note P D E1 E2 notes))
    (hP : tidy P = true) (hPgt : ∀ c ∈ P, c ≠ '>')
    (hD : tidy D = true) (hDn : ∀ c ∈ D, c ≠ '\n')
    (hE1 : cleanExample E1 = true) (hE2 : cleanExample E2 = true)
    (hNotes : ∀ t, notes = some t → tidy t = true ∧ ∀ c ∈ t, c ≠ '\n')
    (hSafe : exBlockSafe (E1 ++ '\n' :: (E2 ++ notesTail notes)) = true)
    (hLabelFirst : ∀ n, n < 18 + note.length →
      matchLabelAt (List.drop n (layout note P D E1 E2 notes)) = none)
    (hDefFirst : ∀ n, n < 40 + note.length + P.length →
      matchDefAt (List.drop n (layout note P D E1 E2 notes)) = none)
    (hExFirst : ∀ n, n < 53 + note.length + P.length + D.length →
      matchExamplesAt (List.drop n (layout note P D E1 E2 notes)) = none) :
    parseLesson item =
      { phrase := P
        definition := D
        examples := [E1, E2] } := by
  set full := layout note P D E1 E2 notes with hfull
  set block := E1 ++ '\n' :: (E2 ++ notesTail notes) with hblock
  have hdec1 : full = ("What to improve: ".toList ++ note ++ ['\n']) ++
      ("Phrase to learn: ".toList ++ '<' :: '<' ::
        (P ++ '>' :: '>' :: '\n' ::
          ("Definition: ".toList ++ D ++ '\n' ::
            ("Examples:".toList ++ '\n' :: block)))) := by
    rw [hfull, hblock]
    simp [layout]
  have hdec2 : full = ("What to improve: ".toList ++ note ++ '\n' ::
      ("Phrase to learn: ".toList ++ '<' :: '<' :: (P ++ ['>', '>', '\n']))) ++
      ("Definition: ".toList ++ (D ++ '\n' ::
        ("Examples:".toList ++ '\n' :: block))) := by
    rw [hfull, hblock]
    simp [layout]
  have hdec3 : full = ("What to improve: ".toList ++ note ++ '\n' ::
      ("Phrase to learn: ".toList ++ '<' :: '<' :: (P ++ '>' :: '>' :: '\n' ::
        ("Definition: ".toList ++ D ++ ['\n'])))) ++
      ("Examples:".toList ++ '\n' :: block) := by
    rw [hfull, hblock]
    simp [layout]
  have hfne : full ≠ [] := by
    rw [hdec1]
    simp
  -- phrase
  have hm1 : matchLabelAt ("Phrase to learn: ".toList ++ '<' :: '<' ::
      (P ++ '>' :: '>' :: '\n' ::
        ("Definition: ".toList ++ D ++ '\n' ::
          ("Examples:".toList ++ '\n' :: block)))) = some P :=
    matchLabelAt_layoutPos P _ hP hPgt
  have hsearch1 : searchA matchLabelAt full = some P := by
    have hpre : ∀ n, n < ("What to improve: ".toList ++ note ++ ['\n']).length →
        matchLabelAt (List.drop n (("What to improve: ".toList ++ note ++ ['\n']) ++
          ("Phrase to learn: ".toList ++ '<' :: '<' ::
            (P ++ '>' :: '>' :: '\n' ::
              ("Definition: ".toList ++ D ++ '\n' ::
                ("Examples:".toList ++ '\n' :: block)))))) = none := by
      intro n hn
      rw [← hdec1]
      apply hLabelFirst
      simp only [List.length_append, List.length_cons, List.length_nil] at hn
      have hlit : ("What to improve: ".toList).length = 17 := by decide
      omega
    rw [hdec1, searchA_append_none matchLabelAt _ _ hpre]
    exact searchA_cons_some matchLabelAt 'P' _ P hm1
  have hcanonLabels : canonicalFromLabels full = some P := by
    unfold canonicalFromLabels
    rw [if_neg hfne, hsearch1]
    dsimp only
    rw [tidy_strip hP, if_neg (tidy_ne_nil hP)]
  have hcanonRA : extractCanonicalPhraseRA item = some P := by
    unfold extractCanonicalPhraseRA
    rw [hlt]
    dsimp only [Option.getD_some]
    rw [hcanonLabels]
  -- definition
  have hm2 : matchDefAt ("Definition: ".toList ++ (D ++ '\n' ::
      ("Examples:".toList ++ '\n' :: block))) = some D :=
    matchDefAt_layoutPos D _ hD hDn
  have hsearch2 : searchA matchDefAt full = some D := by
    have hpre : ∀ n, n < ("What to improve: ".toList ++ note ++ '\n' ::
        ("Phrase to learn: ".toList ++ '<' :: '<' :: (P ++ ['>', '>', '\n']))).length →
        matchDefAt (List.drop n (("What to improve: ".toList ++ note ++ '\n' ::
          ("Phrase to learn: ".toList ++ '<' :: '<' :: (P ++ ['>', '>', '\n']))) ++
          ("Definition: ".toList ++ (D ++ '\n' ::
            ("Examples:".toList ++ '\n' :: block))))) = none := by
      intro n hn
      rw [← hdec2]
      apply hDefFirst
      simp only [List.length_append, List.length_cons, List.length_nil] at hn
      have hlit : ("What to improve: ".toList).length = 17 := by decide
      have hlit2 : ("Phrase to learn: ".toList).length = 17 := by decide
      omega
    rw [hdec2, searchA_append_none matchDefAt _ _ hpre]
    exact searchA_cons_some matchDefAt 'D' _ D hm2
  have hdefn : extractDefinitionRA full item = D := by
    unfold extractDefinitionRA
    rw [if_neg hfne, hsearch2]
    dsimp only
    rw [tidy_strip hD, defnSplitHead_id D hDn, tidy_strip hD]
  -- examples
  obtain ⟨e1, E1r, hE1s⟩ : ∃ e t, E1 = e :: t := by
    cases hE1c : E1 with
    | nil => exact absurd hE1c (tidy_ne_nil (cleanExample_parts hE1).1)
    | cons e t => exact ⟨e, t, rfl⟩
  have hblockc : block = e1 :: (E1r ++ '\n' :: (E2 ++ notesTail notes)) := by
    rw [hblock, hE1s]
    rfl
  have he1 : pyIsSpace e1 = false :=
    tidy_head (cleanExample_parts hE1).1 e1 (by rw [hE1s]; rfl)
  have hm3 : matchExamplesAt ("Examples:".toList ++ '\n' :: block) = some block := by
    rw [hblockc]
    exact matchExamplesAt_layoutPos e1 _ he1 (by rw [← hblockc, hblock]; exact hSafe)
  have hsearch3 : searchA matchExamplesAt full = some block := by
    have hpre : ∀ n, n < ("What to improve: ".toList ++ note ++ '\n' ::
        ("Phrase to learn: ".toList ++ '<' :: '<' :: (P ++ '>' :: '>' :: '\n' ::
          ("Definition: ".toList ++ D ++ ['\n'])))).length →
        matchExamplesAt (List.drop n (("What to improve: ".toList ++ note ++ '\n' ::
          ("Phrase to learn: ".toList ++ '<' :: '<' :: (P ++ '>' :: '>' :: '\n' ::
            ("Definition: ".toList ++ D ++ ['\n'])))) ++
          ("Examples:".toList ++ '\n' :: block))) = none := by
      intro n hn
      rw [← hdec3]
      apply hExFirst
      simp only [List.length_append, List.length_cons, List.length_nil] at hn
      have hlit : ("What to improve: ".toList).length = 17 := by decide
      have hlit2 : ("Phrase to learn: ".toList).length = 17 := by decide
      have hlit3 : ("Definition: ".toList).length = 12 := by decide
      omega
    rw [hdec3, searchA_append_none matchExamplesAt _ _ hpre]
    exact searchA_cons_some matchExamplesAt 'E' _ block hm3
  have hE1nl : ∀ c ∈ E1, c ≠ '\n' := by
    intro c hc hcontra
    exact ((cleanExample_parts hE1).2.2.1 c hc) (Or.inl hcontra)
  have hE2nl : ∀ c ∈ E2, c ≠ '\n' := by
    intro c hc hcontra
    exact ((cleanExample_parts hE2).2.2.1 c hc) (Or.inl hcontra)
  have hstrip_block : pyStrip block = block := by
    apply tidy_strip
    rw [hblock]
    apply tidy_wrap E1 (E2 ++ notesTail notes) (cleanExample_parts hE1).1
    · intro hcontra
      exact (tidy_ne_nil (cleanExample_parts hE2).1)
        (List.append_eq_nil.mp hcontra).1
    · intro c hc
      cases hno : notes with
      | none =>
        rw [hno] at hc
        simp only [notesTail, List.append_nil] at hc
        exact tidy_last (cleanExample_parts hE2).1 c hc
      | some t =>
        rw [hno] at hc
        simp only [notesTail] at hc
        rw [List.getLast?_append_cons] at hc
        have htne : tidy t = true := (hNotes t hno).1
        have hNt : ("Notes: ".toList ++ t) ≠ [] := by simp
        have hstep : ('\n' :: ("Notes: ".toList ++ t)) = ['\n'] ++
            ("Notes: ".toList ++ t) := rfl
        rw [hstep, List.getLast?_append_of_ne_nil _ hNt,
          List.getLast?_append_of_ne_nil _ (tidy_ne_nil htne)] at hc
        exact tidy_last htne c hc
  obtain ⟨tl, hsplitb⟩ := splitNl_block E1 E2 notes hE1nl hE2nl
    (tidy_ne_nil (cleanExample_parts hE2).1)
    (fun t ht => (hNotes t ht).2)
  have hexamples : extractExamplesRA full P item = [E1, E2] := by
    rw [← hblock] at hsplitb
    unfold extractExamplesRA
    dsimp only
    rw [if_pos hfne, hsearch3]
    dsimp only
    rw [hstrip_block, hsplitb, exStageA_clean_two P E1 E2 tl hE1 hE2]
    simp [exFinalClean_clean_two E1 E2 hE1 hE2]
  -- assembly
  unfold parseLesson
  rw [hlt]
  dsimp only [Option.getD_some]
  rw [hcanonRA]
  dsimp only
  rw [hdefn, if_pos (tidy_ne_nil hD), hexamples]
  obtain ⟨hsP1, _, haP1, hrP1, _, _⟩ := clean_fix P P E1 hE1
  obtain ⟨hsP2, _, haP2, hrP2, _, _⟩ := clean_fix P P E2 hE2
  rw [List.map_cons, List.map_cons, List.map_nil, haP1, hrP1, hsP1, haP2, hrP2, hsP2]
  simp [tidy_ne_nil hP]

/-- C3 witness: the round-trip theorem applied to a concrete standardized
lesson with a trailing notes line. -/
theorem c3_roundtrip_witness :
    parseLesson c3Item =
      { phrase := "hang in there".toList
        definition := "to persevere and not give up".toList
        examples := ["Hang in there, it gets better.".toList,
          "She told me to hang in there.".toList] } :=
  c3_roundtrip c3Item "(none)".toList "hang in there".toList
    "to persevere and not give up".toList
    "Hang in there, it gets better.".toList
    "She told me to hang in there.".toList
    (some "Use it to encourage someone.".toList)
    rfl (by decide) (by decide) (by decide) (by decide) (by decide) (by decide)
    (by
      intro t ht
      injection ht with h
      subst h
      exact ⟨by decide, by decide⟩)
    (by decide) (by decide) (by decide) (by decide)

end NPA
